import Mathlib

/-!
Verification development for the mini search engine (SearchEngine.cpp / SearchEngine.h).

Shallow embedding of the indexing and ranking core:

* `std::string` is a `List Char`; `vector<string>` is a `List (List Char)`.
* `ListNode*` and `TrieNode*` are inductive types whose `null` constructor is `nullptr`;
  in-place mutation through a pointer becomes rebuilding the path to the mutated node.
* `int` is `Int` (document ids, frequencies) or `Nat` (loop counters, sizes); no run of the
  engine comes near the 32-bit range on these values, so no wrap-around is modelled.
* `double` is an arbitrary linearly ordered field `S`, with the library function `log`
  taken as a parameter; the theorems about logarithms instantiate `S := ℝ`, `log := Real.log`.
  Rounding of floating point arithmetic is therefore not modelled: scores are exact.
* console output of `search` / `displayResults` is returned as a value (`SearchOutput`).
-/

namespace SearchEngine

/-! ## Text helpers -/

/-- Source: `SearchEngine::isAlphaNum`. -/
def isAlphaNum (c : Char) : Bool :=
  (decide ('a' ≤ c) && decide (c ≤ 'z')) || (decide ('A' ≤ c) && decide (c ≤ 'Z')) ||
    (decide ('0' ≤ c) && decide (c ≤ '9'))

/-- Source: `SearchEngine::toLowerCase`: `tolower` applied to every character. -/
def toLowerCase (str : List Char) : List Char :=
  str.map Char.toLower

/-- The `for (char ch : query)` loop of `SearchEngine::tokenizeQuery`, carrying the two
mutable variables `current_token` and `tokens`. -/
def tokenizeLoop : List Char → List Char → List (List Char) → List Char × List (List Char)
  | [], current_token, tokens => (current_token, tokens)
  | ch :: rest, current_token, tokens =>
    if isAlphaNum ch then
      tokenizeLoop rest (current_token ++ [ch]) tokens
    else if !current_token.isEmpty then
      tokenizeLoop rest [] (tokens ++ [current_token])
    else
      tokenizeLoop rest current_token tokens

/-- Source: `SearchEngine::tokenizeQuery(query, tokens)`: the result is the final value of the
output parameter `tokens`. -/
def tokenizeQuery (query : List Char) (tokens : List (List Char)) : List (List Char) :=
  let st := tokenizeLoop query [] tokens
  if !st.1.isEmpty then st.2 ++ [st.1] else st.2

/-! ## Posting lists and the trie -/

/-- Pointer type `ListNode*`: `null` is `nullptr`. -/
inductive ListNode where
  | null : ListNode
  | node (document_id : Int) (frequency : Int) (next : ListNode) : ListNode
  deriving DecidableEq, Repr

/-- Pointer type `TrieNode*`: `null` is `nullptr`. -/
inductive TrieNode where
  | null : TrieNode
  | node (character : Char) (child : TrieNode) (sibling : TrieNode) (documents : ListNode) :
      TrieNode
  deriving DecidableEq, Repr

/-- The scan `while (doc_node && doc_node->document_id != doc_id) doc_node = doc_node->next;`
of `insertWord`: the node the scan stops at (`null` when it runs off the list). -/
def findDocument : ListNode → Int → ListNode
  | .null, _ => .null
  | .node document_id frequency next, doc_id =>
    if document_id ≠ doc_id then findDocument next doc_id
    else .node document_id frequency next

/-- The statement `doc_node->frequency++` applied to the node `findDocument` stops at. -/
def incrementFrequency : ListNode → Int → ListNode
  | .null, _ => .null
  | .node document_id frequency next, doc_id =>
    if document_id ≠ doc_id then .node document_id frequency (incrementFrequency next doc_id)
    else .node document_id (frequency + 1) next

/-- The "Add document occurrence" part of `insertWord` on `current->documents`. -/
def addDocument (documents : ListNode) (doc_id : Int) : ListNode :=
  match findDocument documents doc_id with
  | .null => .node doc_id 1 documents
  | .node _ _ _ => incrementFrequency documents doc_id

/-- The scan `while (child && child->character != ch) child = child->sibling;` shared by
`insertWord` and `searchWord`: the node the scan stops at. -/
def findChild : TrieNode → Char → TrieNode
  | .null, _ => .null
  | .node character child sibling documents, ch =>
    if character ≠ ch then findChild sibling ch
    else .node character child sibling documents

/-- Mutation through the pointer `findChild` returns: the first node of the sibling chain
carrying `ch` is replaced by `f` of it. -/
def updateChild (f : TrieNode → TrieNode) : TrieNode → Char → TrieNode
  | .null, _ => .null
  | .node character child sibling documents, ch =>
    if character ≠ ch then .node character child (updateChild f sibling ch) documents
    else f (.node character child sibling documents)

/-- The body of `SearchEngine::insertWord` from the node `current` onwards, for the rest of
the word. -/
def insertFrom : List Char → Int → TrieNode → TrieNode
  | _, _, .null => .null
  | [], doc_id, .node character child sibling documents =>
    .node character child sibling (addDocument documents doc_id)
  | ch :: rest, doc_id, .node character child sibling documents =>
    match findChild child ch with
    | .null =>
      .node character (insertFrom rest doc_id (.node ch .null child .null)) sibling documents
    | .node _ _ _ _ =>
      .node character (updateChild (insertFrom rest doc_id) child ch) sibling documents

/-- Source: `SearchEngine::insertWord(word, doc_id)`, as a function of the trie under `root`. -/
def insertWord (root : TrieNode) (word : List Char) (doc_id : Int) : TrieNode :=
  insertFrom word doc_id root

/-- Source: `SearchEngine::searchWord(word)`, started at `current`. -/
def searchWord : TrieNode → List Char → TrieNode
  | current, [] => current
  | .null, _ :: _ => .null
  | .node _ child _ _, ch :: rest =>
    match findChild child ch with
    | .null => .null
    | .node c' child' sibling' documents' => searchWord (.node c' child' sibling' documents') rest

/-- The loop of `countWordInDocument` over the posting list. -/
def frequencyOf : ListNode → Int → Int
  | .null, _ => 0
  | .node document_id frequency next, doc_id =>
    if document_id = doc_id then frequency else frequencyOf next doc_id

/-- The loop of `countDocumentsContaining` over the posting list. -/
def postingLength : ListNode → Nat
  | .null => 0
  | .node _ _ next => postingLength next + 1

end SearchEngine

/-- State of a `SearchEngine` object (`max_line_length` only sizes the text buffers). -/
structure SearchEngine where
  root : SearchEngine.TrieNode
  document_map : List (List Char)
  total_documents : Nat

namespace SearchEngine

/-- The engine after the constructor and `loadDataset`: an empty trie whose root carries the
null character, and the documents in load order. -/
def load (documents : List (List Char)) : SearchEngine :=
  { root := .node (Char.ofNat 0) .null .null .null
    document_map := documents
    total_documents := documents.length }

/-- Text of `document_map[doc_id]`. -/
def documentText (e : SearchEngine) (doc_id : Int) : List Char :=
  e.document_map.getD doc_id.toNat []

/-- The inner loop of `buildIndex` over the words of one document. -/
def indexWords (root : TrieNode) (doc_id : Int) (words : List (List Char)) : TrieNode :=
  words.foldl
    (fun r word => if !word.isEmpty then insertWord r (toLowerCase word) doc_id else r) root

/-- Source: `SearchEngine::buildIndex`. -/
def buildIndex (e : SearchEngine) : SearchEngine :=
  { e with
    root := (List.range e.total_documents).foldl
      (fun r (doc_id : Nat) =>
        indexWords r (doc_id : Int) (tokenizeQuery (e.documentText (doc_id : Int)) []))
      e.root }

/-- Source: `SearchEngine::countWordInDocument`. -/
def countWordInDocument (e : SearchEngine) (word : List Char) (doc_id : Int) : Int :=
  match searchWord e.root (toLowerCase word) with
  | .null => 0
  | .node _ _ _ documents => frequencyOf documents doc_id

/-- Source: `SearchEngine::countDocumentsContaining`. -/
def countDocumentsContaining (e : SearchEngine) (word : List Char) : Nat :=
  match searchWord e.root (toLowerCase word) with
  | .null => 0
  | .node _ _ _ documents => postingLength documents

/-! ## Auxiliary definitions for the index: lookups by case-folded word, loop prefixes,
posting-list invariants and the corpora of the concrete instances -/

/-- What `tokenizeQuery` does with the state the loop ends in. -/
def flushToken (st : List Char × List (List Char)) : List (List Char) :=
  if !st.1.isEmpty then st.2 ++ [st.1] else st.2

/-- Posting list of the node `searchWord` reaches for the (already case-folded) word; `null`
when there is no such node. -/
def postingsAt (current : TrieNode) (word : List Char) : ListNode :=
  match searchWord current word with
  | .null => .null
  | .node _ _ _ documents => documents

/-- Occurrence count read off the node `searchWord` reaches for the (already case-folded)
word: the tail of `countWordInDocument`. -/
def countAt (current : TrieNode) (word : List Char) (doc_id : Int) : Int :=
  match searchWord current word with
  | .null => 0
  | .node _ _ _ documents => frequencyOf documents doc_id

/-- Posting-list length read off the node `searchWord` reaches: the tail of
`countDocumentsContaining`. -/
def lengthAt (current : TrieNode) (word : List Char) : Nat :=
  match searchWord current word with
  | .null => 0
  | .node _ _ _ documents => postingLength documents

/-- Number of words of a document's word list that `buildIndex` inserts as `word'`. -/
def insertedCount (words : List (List Char)) (word' : List Char) : Nat :=
  words.countP (fun word => !word.isEmpty && decide (toLowerCase word = word'))

/-- The trie after the first `n` iterations of the outer loop of `buildIndex`. -/
def indexedUpTo (e : SearchEngine) (n : Nat) : TrieNode :=
  (List.range n).foldl
    (fun r (doc_id : Nat) =>
      indexWords r (doc_id : Int) (tokenizeQuery (e.documentText (doc_id : Int)) []))
    e.root

/-- Every posting entry has frequency at least 1. -/
def allPositive : ListNode → Prop
  | .null => True
  | .node _ frequency next => 1 ≤ frequency ∧ allPositive next

/-- A posting list is sound for the documents `0 .. m-1`: its frequencies are positive, it
mentions no other document, and it has one entry per document with a positive frequency. -/
def PostingSound (postings : ListNode) (m : Nat) : Prop :=
  allPositive postings ∧
  (∀ d : Int, (d < 0 ∨ (m : Int) ≤ d) → frequencyOf postings d = 0) ∧
  postingLength postings =
    (List.range m).countP (fun (d : Nat) => decide (0 < frequencyOf postings (d : Int)))

/-- Whether a token of the text case-folds to the case-folded term. -/
def occursIn (t : List Char) (text : List Char) : Bool :=
  (tokenizeQuery text []).any (fun tok => decide (toLowerCase tok = toLowerCase t))

/-- A corpus of 102 one-word documents: 101 times "a", then "b". -/
def manyMatches : List (List Char) :=
  List.replicate 101 "a".toList ++ ["b".toList]

/-- A corpus whose best match for "a" is not its first match. -/
def lateBest : List (List Char) :=
  ["a b".toList, "a".toList, "c".toList]

/-- The empty trie made by the constructor: a root carrying the null character. -/
def emptyRoot : TrieNode :=
  .node (Char.ofNat 0) .null .null .null

/-- A sequence of `insertWord` calls, one per (word, document id) pair, in list order. -/
def insertWords (root : TrieNode) (ins : List (List Char × Int)) : TrieNode :=
  ins.foldl (fun r p => insertWord r p.1 p.2) root

/-- The pairs as `buildIndex` passes them to `insertWord`: the term case-folded. -/
def foldTerms (ins : List (List Char × Int)) : List (List Char × Int) :=
  ins.map (fun p => (toLowerCase p.1, p.2))

/-- Whether `searchWord` reaches a node (returns a non-null pointer). -/
def reaches (current : TrieNode) (word : List Char) : Bool :=
  match searchWord current word with
  | .null => false
  | .node _ _ _ _ => true

/-- The corpus of Scenario A. -/
def scenarioA : List (List Char) :=
  ["the cat sat".toList, "the dog sat".toList, "the cat ran".toList]

/-- The document ids inserted for a word by a sequence of insertions. -/
def docsOf (ins : List (List Char × Int)) (word : List Char) : Finset Int :=
  ((ins.filter (fun p => decide (p.1 = word))).map (fun p => p.2)).toFinset

/-- The characters carried by the nodes of a sibling chain, in chain order. -/
def chainChars : TrieNode → List Char
  | .null => []
  | .node character _ sibling _ => character :: chainChars sibling

/-- The document ids of the entries of a posting list, in list order. -/
def docIds : ListNode → List Int
  | .null => []
  | .node document_id _ next => document_id :: docIds next

/-- Trie well-formedness, for a node and every node below and after it: the children of a
node carry pairwise distinct characters, a posting list has pairwise distinct document ids,
and every posting entry has frequency at least 1. -/
def WellFormed : TrieNode → Prop
  | .null => True
  | .node _ child sibling documents =>
    (chainChars child).Nodup ∧ (docIds documents).Nodup ∧ allPositive documents ∧
      WellFormed child ∧ WellFormed sibling

/-! ## Scorer -/

section Scorer

variable {S : Type} [LinearOrderedField S]

/-- Source: `SearchEngine::calculateTF`; `(double)word_count / total_words` is the division of `S`. -/
def calculateTF (e : SearchEngine) (word : List Char) (doc_id : Int) : S :=
  let word_count := countWordInDocument e word doc_id
  if word_count = 0 then 0
  else
    let total_words := (tokenizeQuery (e.documentText doc_id) []).length
    (word_count : S) / (total_words : S)

/-- Source: `SearchEngine::calculateIDF`, with the library function `log` as a parameter. -/
def calculateIDF (log : S → S) (e : SearchEngine) (word : List Char) : S :=
  let docs_containing := countDocumentsContaining e word
  if docs_containing = 0 then 0
  else log ((e.total_documents : S) / (docs_containing : S))

/-- Source: `SearchEngine::calculateTFIDF`. -/
def calculateTFIDF (log : S → S) (e : SearchEngine) (word : List Char) (doc_id : Int) : S :=
  let tf : S := calculateTF e word doc_id
  let idf := calculateIDF log e word
  tf * idf

/-- The inner loop of `search`: `total_score` after adding the TF-IDF of every query term. -/
def totalScore (log : S → S) (e : SearchEngine) (query_terms : List (List Char))
    (doc_id : Int) : S :=
  query_terms.foldl (fun total_score term => total_score + calculateTFIDF log e term doc_id) 0

end Scorer

/-! ## Top-K selector (MaxHeap) -/

/-- Source: `MaxHeap::HeapNode`. -/
structure HeapNode (S : Type) where
  document_id : Int
  score : S
  deriving DecidableEq, Repr

/-- Source: `class MaxHeap`: the array `heap` (of `capacity` slots), `capacity` and `size`. -/
structure MaxHeap (S : Type) where
  heap : List (HeapNode S)
  capacity : Nat
  size : Nat

namespace MaxHeap

variable {S : Type} [LinearOrderedField S]

/-- The default constructor `HeapNode()`: `(-1, 0.0)`. -/
def emptyNode : HeapNode S := ⟨-1, 0⟩

/-- Array read `heap[i]`. -/
def nodeAt (heap : List (HeapNode S)) (i : Nat) : HeapNode S :=
  heap.getD i emptyNode

/-- The three assignments `temp = heap[i]; heap[i] = heap[j]; heap[j] = temp;`. -/
def swapNodes (heap : List (HeapNode S)) (i j : Nat) : List (HeapNode S) :=
  let temp := nodeAt heap i
  let heap1 := heap.set i (nodeAt heap j)
  heap1.set j temp

/-- Source: `MaxHeap::MaxHeap(cap)`: `new HeapNode[capacity]` default-constructs every slot. -/
def new (cap : Nat) : MaxHeap S :=
  { heap := List.replicate cap emptyNode, capacity := cap, size := 0 }

def parent (index : Nat) : Nat := (index - 1) / 2
def leftChild (index : Nat) : Nat := 2 * index + 1
def rightChild (index : Nat) : Nat := 2 * index + 2

def isEmpty (h : MaxHeap S) : Bool := h.size == 0
def isFull (h : MaxHeap S) : Bool := h.size == h.capacity

/-- Source: `MaxHeap::heapifyUp`. -/
def heapifyUp (h : MaxHeap S) (index : Nat) : MaxHeap S :=
  if index = 0 then h
  else
    let parentIndex := parent index
    if (nodeAt h.heap parentIndex).score < (nodeAt h.heap index).score then
      heapifyUp { h with heap := swapNodes h.heap parentIndex index } parentIndex
    else h
termination_by index
decreasing_by
  simp only [parent]
  omega

/-- The choice of `largest` in `MaxHeap::heapifyDown`. -/
def largestOf (h : MaxHeap S) (index : Nat) : Nat :=
  let left := leftChild index
  let right := rightChild index
  let largest := index
  let largest :=
    if left < h.size ∧ (nodeAt h.heap left).score > (nodeAt h.heap largest).score then left
    else largest
  let largest :=
    if right < h.size ∧ (nodeAt h.heap right).score > (nodeAt h.heap largest).score then right
    else largest
  largest

/-- Source: `MaxHeap::heapifyDown`. -/
def heapifyDown (h : MaxHeap S) (index : Nat) : MaxHeap S :=
  let largest := largestOf h index
  if largest ≠ index then
    heapifyDown { h with heap := swapNodes h.heap index largest } largest
  else h
termination_by h.size - index
decreasing_by
  show h.size - largestOf h index < h.size - index
  have hne' : largestOf h index ≠ index := by assumption
  revert hne'
  unfold largestOf leftChild rightChild
  simp only
  split_ifs with h1 h2 h2 <;> intro hne' <;> omega

/-- Source: `MaxHeap::insert`. -/
def insert (h : MaxHeap S) (doc_id : Int) (score : S) : MaxHeap S :=
  if h.isFull then h
  else
    let h1 := { h with heap := h.heap.set h.size ⟨doc_id, score⟩ }
    let h2 := heapifyUp h1 h1.size
    { h2 with size := h2.size + 1 }

/-- Source: `MaxHeap::extractMax`: the returned node and the heap afterwards. -/
def extractMax (h : MaxHeap S) : HeapNode S × MaxHeap S :=
  if h.isEmpty then (emptyNode, h)
  else
    let root := nodeAt h.heap 0
    let h1 := { h with heap := h.heap.set 0 (nodeAt h.heap (h.size - 1)) }
    let h2 := { h1 with size := h1.size - 1 }
    (root, heapifyDown h2 0)

/-! ### Auxiliary definitions for the heap: invariants, held candidates, draining -/

/-- Max-heap property of the first `n` slots: every slot's score is at most its parent's. -/
def HeapOrdered (heap : List (HeapNode S)) (n : Nat) : Prop :=
  ∀ i, 0 < i → i < n → (nodeAt heap i).score ≤ (nodeAt heap (parent i)).score

/-- Invariant of `heapifyUp` at slot `k`: the heap property may fail only between `k` and
its parent, and the children of `k` are dominated by the parent of `k`. -/
def UpInv (heap : List (HeapNode S)) (n k : Nat) : Prop :=
  (∀ i, 0 < i → i < n → i ≠ k → (nodeAt heap i).score ≤ (nodeAt heap (parent i)).score) ∧
  (∀ i, 0 < i → i < n → parent i = k → 0 < k →
    (nodeAt heap i).score ≤ (nodeAt heap (parent k)).score)

/-- Invariant of `heapifyDown` at slot `k`: the heap property may fail only between `k` and
its children, and the children of `k` are dominated by the parent of `k`. -/
def DownInv (heap : List (HeapNode S)) (n k : Nat) : Prop :=
  (∀ i, 0 < i → i < n → parent i ≠ k → (nodeAt heap i).score ≤ (nodeAt heap (parent i)).score) ∧
  (∀ i, 0 < i → i < n → parent i = k → 0 < k →
    (nodeAt heap i).score ≤ (nodeAt heap (parent k)).score)

/-- Representation invariant of a `MaxHeap`: the array has `capacity` slots, `size` is within
the capacity, and the first `size` slots satisfy the max-heap property. -/
def Inv (h : MaxHeap S) : Prop :=
  h.heap.length = h.capacity ∧ h.size ≤ h.capacity ∧ HeapOrdered h.heap h.size

/-- The candidates a heap holds: its first `size` slots. -/
def held (h : MaxHeap S) : List (HeapNode S) :=
  h.heap.take h.size

/-- Repeated `extractMax`, at most `n` times, stopping at an empty heap: the extracted nodes
in extraction order and the heap left over. -/
def extractAll : Nat → MaxHeap S → List (HeapNode S) × MaxHeap S
  | 0, h => ([], h)
  | n + 1, h =>
    if h.isEmpty then ([], h)
    else
      let r := h.extractMax
      let rest := extractAll n r.2
      (r.1 :: rest.1, rest.2)

/-- Draining a heap: `extractMax` repeated `size` times, which empties it. -/
def drain (h : MaxHeap S) : List (HeapNode S) × MaxHeap S :=
  extractAll h.size h

/-- A sequence of `MaxHeap::insert` calls, one per candidate, in list order. -/
def insertAll (h : MaxHeap S) (cands : List (HeapNode S)) : MaxHeap S :=
  cands.foldl (fun h c => h.insert c.document_id c.score) h

/-- Renaming of the document id of a candidate; the score is untouched. -/
def relabel (f : Int → Int) (c : HeapNode S) : HeapNode S :=
  ⟨f c.document_id, c.score⟩

/-- A heap with every slot's document id renamed. -/
def mapHeap (f : Int → Int) (h : MaxHeap S) : MaxHeap S :=
  { h with heap := h.heap.map (relabel f) }

/-- The renaming of document ids that exchanges 1 and 2. -/
def swapOneTwo (d : Int) : Int :=
  if d = 1 then 2 else if d = 2 then 1 else d

end MaxHeap

/-! ## Query engine -/

/-- One block printed by `displayResults`: rank, score, document id and content. -/
structure ResultEntry (S : Type) where
  rank : Nat
  score : S
  document_id : Int
  content : List Char

/-- What `search` writes to the console: the "Empty query" error, "No results found.", or the
ranked result blocks. -/
inductive SearchOutput (S : Type) where
  | emptyQuery : SearchOutput S
  | noResults : SearchOutput S
  | results (entries : List (ResultEntry S)) : SearchOutput S

section QueryEngine

variable {S : Type} [LinearOrderedField S]

/-- The loop `while (!results.isEmpty() && rank <= 100)` of `displayResults`. -/
def displayLoop (e : SearchEngine) (results : MaxHeap S) (rank : Nat) : List (ResultEntry S) :=
  if hc : !results.isEmpty ∧ rank ≤ 100 then
    let result := results.extractMax
    { rank := rank, score := result.1.score, document_id := result.1.document_id,
      content := e.documentText result.1.document_id } :: displayLoop e result.2 (rank + 1)
  else []
termination_by 101 - rank
decreasing_by
  have := hc.2
  omega

/-- Source: `SearchEngine::displayResults`. -/
def displayResults (e : SearchEngine) (results : MaxHeap S) : SearchOutput S :=
  if results.isEmpty then .noResults
  else .results (displayLoop e results 1)

/-- The loop of `search` over all document ids, filling the heap `results`. -/
def collectResults (log : S → S) (e : SearchEngine) (query_terms : List (List Char))
    (results : MaxHeap S) : MaxHeap S :=
  (List.range e.total_documents).foldl
    (fun results (doc_id : Nat) =>
      let total_score := totalScore log e query_terms (doc_id : Int)
      if total_score > 0 then
        if !results.isFull then results.insert (doc_id : Int) total_score
        else results.insert (doc_id : Int) total_score
      else results)
    results

/-- Source: `SearchEngine::search`. -/
def search (log : S → S) (e : SearchEngine) (query : List Char) (k : Nat) : SearchOutput S :=
  let query_terms := tokenizeQuery query []
  if query_terms.isEmpty then .emptyQuery
  else displayResults e (collectResults log e query_terms (MaxHeap.new k))

/-- The result blocks of a search output (none for "Empty query" and "No results found."). -/
def SearchOutput.entries : SearchOutput S → List (ResultEntry S)
  | .emptyQuery => []
  | .noResults => []
  | .results entries => entries

/-- The candidates `search` offers to the heap, in the order it offers them: the documents
whose total score is strictly positive, by ascending document id. -/
def candidates (log : S → S) (e : SearchEngine) (query_terms : List (List Char)) :
    List (HeapNode S) :=
  (List.range e.total_documents).filterMap (fun (doc_id : Nat) =>
    if 0 < totalScore log e query_terms (doc_id : Int) then
      some ⟨(doc_id : Int), totalScore log e query_terms (doc_id : Int)⟩
    else none)

/-- The (document id, score) pair printed in a result block. -/
def ResultEntry.node (en : ResultEntry S) : HeapNode S :=
  ⟨en.document_id, en.score⟩

/-- A call on a `MaxHeap`: `insert(doc_id, score)` or `extractMax()`. -/
inductive HeapOp (S : Type) where
  | insert (doc_id : Int) (score : S) : HeapOp S
  | extractMax : HeapOp S

/-- The heap after one call. -/
def applyOp (h : MaxHeap S) : HeapOp S → MaxHeap S
  | .insert doc_id score => h.insert doc_id score
  | .extractMax => h.extractMax.2

/-- The heap after a sequence of calls, in list order. -/
def applyOps (h : MaxHeap S) (ops : List (HeapOp S)) : MaxHeap S :=
  ops.foldl applyOp h

end QueryEngine

/-- The tokenizer as the specification words it: split the text at every character that is
not an ASCII letter or digit and discard the empty pieces. -/
def splitTokens (s : List Char) : List (List Char) :=
  (s.splitOnP (fun c => !isAlphaNum c)).filter (fun piece => !piece.isEmpty)

end SearchEngine

/-! ## Theorems -/

namespace SearchEngine

/-! ### Tokenizer -/

theorem tokenizeQuery_eq_flush (query : List Char) (tokens : List (List Char)) :
    tokenizeQuery query tokens = flushToken (tokenizeLoop query [] tokens) := rfl

theorem modifyHead_self {α : Type} (l : List α) : l.modifyHead (fun piece => piece) = l := by
  cases l <;> rfl

theorem flush_tokenizeLoop (s cur : List Char) (toks : List (List Char)) :
    flushToken (tokenizeLoop s cur toks) =
      toks ++ (((s.splitOnP (fun c => !isAlphaNum c)).modifyHead (fun piece => cur ++ piece)).filter
        (fun piece => !piece.isEmpty)) := by
  induction s generalizing cur toks with
  | nil =>
    cases cur <;> simp [tokenizeLoop, flushToken, List.splitOnP_nil]
  | cons ch rest ih =>
    rw [List.splitOnP_cons]
    by_cases hch : isAlphaNum ch = true
    · simp only [tokenizeLoop, hch, if_true, Bool.not_true, Bool.false_eq_true, if_false]
      rw [ih, List.modifyHead_modifyHead]
      congr 3
      funext piece
      simp
    · have hch' : isAlphaNum ch = false := by simpa using hch
      cases cur with
      | nil =>
        simp only [tokenizeLoop, hch', Bool.false_eq_true, if_false, Bool.not_false, if_true,
          List.isEmpty_nil, Bool.not_true]
        rw [ih]
        simp [modifyHead_self]
      | cons c cs =>
        simp only [tokenizeLoop, hch', Bool.false_eq_true, if_false, Bool.not_false, if_true,
          List.isEmpty_cons]
        rw [ih]
        simp [modifyHead_self]

theorem tokenizeQuery_eq_splitTokens (s : List Char) : tokenizeQuery s [] = splitTokens s := by
  rw [tokenizeQuery_eq_flush, flush_tokenizeLoop]
  simp [splitTokens, modifyHead_self]

theorem splitOnP_pieces_clean (p : Char → Bool) (s : List Char) :
    ∀ piece ∈ s.splitOnP p, ∀ c ∈ piece, p c = false := by
  induction s with
  | nil => simp [List.splitOnP_nil]
  | cons x xs ih =>
    rw [List.splitOnP_cons]
    by_cases hx : p x = true
    · simp only [hx, if_true, List.mem_cons]
      rintro piece (rfl | hmem) c hc
      · simp at hc
      · exact ih piece hmem c hc
    · have hx' : p x = false := by simpa using hx
      simp only [hx', Bool.false_eq_true, if_false]
      cases hsplit : List.splitOnP p xs with
      | nil => simp
      | cons hd tl =>
        rw [hsplit] at ih
        simp only [List.modifyHead_cons, List.mem_cons]
        rintro piece (rfl | hmem) c hc
        · rcases List.mem_cons.mp hc with rfl | hc'
          · exact hx'
          · exact ih hd (List.mem_cons_self _ _) c hc'
        · exact ih piece (List.mem_cons_of_mem _ hmem) c hc

theorem tokens_nonempty_alnum (s : List Char) :
    ∀ t ∈ tokenizeQuery s [], t ≠ [] ∧ ∀ c ∈ t, isAlphaNum c = true := by
  intro t ht
  rw [tokenizeQuery_eq_splitTokens, splitTokens, List.mem_filter] at ht
  refine ⟨?_, ?_⟩
  · rintro rfl
    simp at ht
  · intro c hc
    have := splitOnP_pieces_clean (fun c => !isAlphaNum c) s t ht.1 c hc
    simpa using this

/-- C6: for every input string, `tokenizeQuery` on a fresh token vector returns exactly the
pieces obtained by splitting the text at every non-alphanumeric character with the empty
pieces discarded (the maximal alphanumeric runs, left to right, case untouched); every token
is non-empty and made only of characters accepted by `isAlphaNum`. -/
theorem tokenizeQuery_maximal_runs (s : List Char) :
    tokenizeQuery s [] = splitTokens s ∧
      ∀ t ∈ tokenizeQuery s [], t ≠ [] ∧ ∀ c ∈ t, isAlphaNum c = true :=
  ⟨tokenizeQuery_eq_splitTokens s, tokens_nonempty_alnum s⟩

/-! ### Trie: what a lookup sees after an insertion -/

theorem countAt_eq_postingsAt (current : TrieNode) (word : List Char) (d : Int) :
    countAt current word d = frequencyOf (postingsAt current word) d := by
  unfold countAt postingsAt
  cases searchWord current word <;> rfl

theorem lengthAt_eq_postingsAt (current : TrieNode) (word : List Char) :
    lengthAt current word = postingLength (postingsAt current word) := by
  unfold lengthAt postingsAt
  cases searchWord current word <;> rfl

theorem postingsAt_null (word : List Char) : postingsAt .null word = .null := by
  cases word <;> simp [postingsAt, searchWord]

theorem postingsAt_nil (c : Char) (child sibling : TrieNode) (docs : ListNode) :
    postingsAt (.node c child sibling docs) [] = docs := by
  simp [postingsAt, searchWord]

theorem postingsAt_cons (c : Char) (child sibling : TrieNode) (docs : ListNode) (x : Char)
    (xs : List Char) :
    postingsAt (.node c child sibling docs) (x :: xs) = postingsAt (findChild child x) xs := by
  unfold postingsAt
  rw [searchWord]
  cases h : findChild child x with
  | null => cases xs <;> simp [searchWord]
  | node c' child' sibling' docs' => simp

theorem countAt_null (word : List Char) (d : Int) : countAt .null word d = 0 := by
  rw [countAt_eq_postingsAt, postingsAt_null]; rfl

theorem countAt_nil (c : Char) (child sibling : TrieNode) (docs : ListNode) (d : Int) :
    countAt (.node c child sibling docs) [] d = frequencyOf docs d := by
  rw [countAt_eq_postingsAt, postingsAt_nil]

theorem countAt_cons (c : Char) (child sibling : TrieNode) (docs : ListNode) (x : Char)
    (xs : List Char) (d : Int) :
    countAt (.node c child sibling docs) (x :: xs) d = countAt (findChild child x) xs d := by
  rw [countAt_eq_postingsAt, postingsAt_cons, ← countAt_eq_postingsAt]

theorem countWordInDocument_eq_countAt (e : SearchEngine) (word : List Char) (d : Int) :
    countWordInDocument e word d = countAt e.root (toLowerCase word) d := rfl

theorem frequencyOf_eq_zero_of_findDocument (docs : ListNode) (d : Int)
    (h : findDocument docs d = .null) : frequencyOf docs d = 0 := by
  induction docs with
  | null => rfl
  | node document_id frequency next ih =>
    by_cases hne : document_id = d
    · simp [findDocument, hne] at h
    · simp only [findDocument, ne_eq, hne, not_false_eq_true, if_true] at h
      simp [frequencyOf, hne, ih h]

theorem frequencyOf_incrementFrequency (docs : ListNode) (d d' : Int)
    (h : findDocument docs d ≠ .null) :
    frequencyOf (incrementFrequency docs d) d' =
      frequencyOf docs d' + (if d' = d then 1 else 0) := by
  induction docs with
  | null => simp [findDocument] at h
  | node document_id frequency next ih =>
    by_cases hne : document_id = d
    · subst hne
      by_cases hd : document_id = d'
      · subst hd
        simp [incrementFrequency, frequencyOf]
      · have hd' : ¬ d' = document_id := fun h => hd h.symm
        simp [incrementFrequency, frequencyOf, hd, hd']
    · simp only [findDocument, ne_eq, hne, not_false_eq_true, if_true] at h
      simp only [incrementFrequency, ne_eq, hne, not_false_eq_true, if_true, frequencyOf]
      by_cases hd : document_id = d'
      · have hd' : ¬ d' = d := fun h => hne (hd.trans h)
        simp [hd, hd']
      · simp [hd, ih h]

theorem frequencyOf_addDocument (docs : ListNode) (d d' : Int) :
    frequencyOf (addDocument docs d) d' = frequencyOf docs d' + (if d' = d then 1 else 0) := by
  unfold addDocument
  cases h : findDocument docs d with
  | null =>
    by_cases hd : d = d'
    · subst hd
      simp [frequencyOf, frequencyOf_eq_zero_of_findDocument docs d h]
    · have hd' : ¬ d' = d := fun h => hd h.symm
      simp [frequencyOf, hd, hd']
  | node a b c =>
    exact frequencyOf_incrementFrequency docs d d' (by rw [h]; exact fun h => ListNode.noConfusion h)

theorem insertFrom_node (word : List Char) (d : Int) (c : Char) (child sibling : TrieNode)
    (docs : ListNode) :
    ∃ child' docs', insertFrom word d (.node c child sibling docs) =
      .node c child' sibling docs' := by
  cases word with
  | nil => exact ⟨child, addDocument docs d, by simp [insertFrom]⟩
  | cons ch rest =>
    rw [insertFrom]
    cases findChild child ch with
    | null => exact ⟨_, _, rfl⟩
    | node a b c2 d2 => exact ⟨_, _, rfl⟩

theorem postingsAt_sibling_irrelevant (c c' : Char) (child sibling sibling' : TrieNode)
    (docs : ListNode) (word : List Char) :
    postingsAt (.node c child sibling docs) word =
      postingsAt (.node c' child sibling' docs) word := by
  cases word with
  | nil => simp [postingsAt_nil]
  | cons x xs => simp [postingsAt_cons]

theorem postingsAt_findChild_updateChild_ne (f : TrieNode → TrieNode)
    (hf : ∀ c child sibling docs, ∃ child' docs',
      f (.node c child sibling docs) = .node c child' sibling docs')
    (chain : TrieNode) (a x : Char) (hx : x ≠ a) (word : List Char) :
    postingsAt (findChild (updateChild f chain a) x) word =
      postingsAt (findChild chain x) word := by
  induction chain with
  | null => rfl
  | node c child sibling docs _ ihs =>
    by_cases hc : c = a
    · subst hc
      obtain ⟨child', docs', hfe⟩ := hf c child sibling docs
      have hcx : c ≠ x := fun h => hx h.symm
      simp [updateChild, hfe, findChild, hcx]
    · by_cases hcx : c = x
      · subst hcx
        simp only [updateChild, ne_eq, hc, not_false_eq_true, if_true, findChild, not_true_eq_false,
          if_false]
        exact postingsAt_sibling_irrelevant _ _ _ _ _ _ _
      · simp [updateChild, hc, findChild, hcx, ihs]

theorem findChild_updateChild_eq (f : TrieNode → TrieNode)
    (hf : ∀ c child sibling docs, ∃ child' docs',
      f (.node c child sibling docs) = .node c child' sibling docs')
    (chain : TrieNode) (a : Char) (h : findChild chain a ≠ .null) :
    findChild (updateChild f chain a) a = f (findChild chain a) := by
  induction chain with
  | null => simp [findChild] at h
  | node c child sibling docs _ ihs =>
    by_cases hc : c = a
    · subst hc
      obtain ⟨child', docs', hfe⟩ := hf c child sibling docs
      simp [updateChild, findChild, hfe]
    · simp only [findChild, ne_eq, hc, not_false_eq_true, if_true] at h
      simp [updateChild, hc, findChild, ihs h]

/-- Effect of one `insertWord` on the posting list every later lookup reaches: the posting
list of the inserted word receives the document, every other posting list is unchanged. -/
theorem postingsAt_insertFrom (word : List Char) (d : Int) :
    ∀ (c : Char) (child sibling : TrieNode) (docs : ListNode) (word' : List Char),
      postingsAt (insertFrom word d (.node c child sibling docs)) word' =
        if word' = word then addDocument (postingsAt (.node c child sibling docs) word) d
        else postingsAt (.node c child sibling docs) word' := by
  induction word with
  | nil =>
    intro c child sibling docs word'
    cases word' with
    | nil => simp [insertFrom, postingsAt_nil]
    | cons x xs => simp [insertFrom, postingsAt_cons]
  | cons a rest ih =>
    intro c child sibling docs word'
    rw [insertFrom]
    cases hfind : findChild child a with
    | null =>
      simp only
      cases word' with
      | nil => simp [postingsAt_nil]
      | cons x xs =>
        rw [postingsAt_cons, postingsAt_cons, postingsAt_cons]
        obtain ⟨child', docs', hnew⟩ := insertFrom_node rest d a .null child .null
        by_cases hx : x = a
        · subst hx
          have hstep : findChild (insertFrom rest d (.node x .null child .null)) x =
              insertFrom rest d (.node x .null child .null) := by
            rw [hnew]; simp [findChild]
          rw [hstep, ih, hfind]
          have hfresh : ∀ w : List Char, postingsAt (.node x .null child .null) w = .null := by
            intro w
            cases w with
            | nil => simp [postingsAt_nil]
            | cons y ys => simp [postingsAt_cons, findChild, postingsAt_null]
          simp [hfresh, postingsAt_null]
        · have hstep : findChild (insertFrom rest d (.node a .null child .null)) x =
              findChild child x := by
            rw [hnew]
            have hax : a ≠ x := fun h => hx h.symm
            simp [findChild, hax]
          rw [hstep]
          simp [hx]
    | node fc fchild fsibling fdocs =>
      simp only
      cases word' with
      | nil => simp [postingsAt_nil]
      | cons x xs =>
        rw [postingsAt_cons, postingsAt_cons, postingsAt_cons]
        by_cases hx : x = a
        · subst hx
          rw [findChild_updateChild_eq (insertFrom rest d) (insertFrom_node rest d) child x
            (by rw [hfind]; exact fun h => TrieNode.noConfusion h), hfind, ih]
          simp
        · rw [postingsAt_findChild_updateChild_ne (insertFrom rest d) (insertFrom_node rest d)
            child a x hx]
          simp [hx]

/-- Effect of one `insertWord` on every later count: the count of the inserted pair goes up
by one, every other count is unchanged. -/
theorem countAt_insertFrom (word : List Char) (d : Int) (c : Char) (child sibling : TrieNode)
    (docs : ListNode) (word' : List Char) (d' : Int) :
    countAt (insertFrom word d (.node c child sibling docs)) word' d' =
      countAt (.node c child sibling docs) word' d' +
        (if word' = word ∧ d' = d then 1 else 0) := by
  rw [countAt_eq_postingsAt, countAt_eq_postingsAt, postingsAt_insertFrom]
  by_cases hw : word' = word
  · subst hw
    simp [frequencyOf_addDocument]
  · simp [hw]

theorem insertWord_ne_null (r : TrieNode) (hr : r ≠ .null) (word : List Char) (d : Int) :
    insertWord r word d ≠ .null := by
  cases r with
  | null => exact absurd rfl hr
  | node c child sibling docs =>
    obtain ⟨child', docs', h⟩ := insertFrom_node word d c child sibling docs
    rw [insertWord, h]
    exact fun h => TrieNode.noConfusion h

theorem countAt_insertWord (r : TrieNode) (hr : r ≠ .null) (word : List Char) (d : Int)
    (word' : List Char) (d' : Int) :
    countAt (insertWord r word d) word' d' =
      countAt r word' d' + (if word' = word ∧ d' = d then 1 else 0) := by
  cases r with
  | null => exact absurd rfl hr
  | node c child sibling docs => exact countAt_insertFrom word d c child sibling docs word' d'

theorem indexWords_ne_null (words : List (List Char)) (d : Int) :
    ∀ r : TrieNode, r ≠ .null → indexWords r d words ≠ .null := by
  induction words with
  | nil => intro r hr; simpa [indexWords] using hr
  | cons w ws ih =>
    intro r hr
    have hfold : indexWords r d (w :: ws) =
        indexWords (if !w.isEmpty then insertWord r (toLowerCase w) d else r) d ws := rfl
    rw [hfold]
    apply ih
    split
    · exact insertWord_ne_null r hr _ _
    · exact hr

theorem countAt_indexWords (words : List (List Char)) (d : Int) (word' : List Char) (d' : Int) :
    ∀ r : TrieNode, r ≠ .null →
      countAt (indexWords r d words) word' d' =
        countAt r word' d' + (if d' = d then (insertedCount words word' : Int) else 0) := by
  induction words with
  | nil => intro r _; simp [indexWords, insertedCount]
  | cons w ws ih =>
    intro r hr
    have hfold : indexWords r d (w :: ws) =
        indexWords (if !w.isEmpty then insertWord r (toLowerCase w) d else r) d ws := rfl
    rw [hfold]
    by_cases hw : w.isEmpty = true
    · simp only [hw, Bool.not_true, Bool.false_eq_true, if_false]
      rw [ih r hr]
      simp [insertedCount, List.countP_cons, hw]
    · have hw' : w.isEmpty = false := by simpa using hw
      simp only [hw', Bool.not_false, if_true]
      rw [ih _ (insertWord_ne_null r hr _ _), countAt_insertWord r hr]
      by_cases hd : d' = d
      · by_cases hword : toLowerCase w = word'
        · subst hword
          simp [insertedCount, List.countP_cons, hw', hd]
          ring
        · have hword' : ¬ word' = toLowerCase w := fun h => hword h.symm
          simp [insertedCount, List.countP_cons, hw', hd, hword, hword']
      · simp [hd]

theorem indexedUpTo_succ (e : SearchEngine) (n : Nat) :
    indexedUpTo e (n + 1) =
      indexWords (indexedUpTo e n) (n : Int) (tokenizeQuery (e.documentText (n : Int)) []) := by
  simp [indexedUpTo, List.range_succ, List.foldl_append]

theorem buildIndex_root (e : SearchEngine) :
    (buildIndex e).root = indexedUpTo e e.total_documents := rfl

theorem indexedUpTo_ne_null (e : SearchEngine) (hr : e.root ≠ .null) (n : Nat) :
    indexedUpTo e n ≠ .null := by
  induction n with
  | zero => simpa [indexedUpTo] using hr
  | succ n ih =>
    rw [indexedUpTo_succ]
    exact indexWords_ne_null _ _ _ ih

theorem countAt_indexedUpTo (e : SearchEngine) (hr : e.root ≠ .null) (word' : List Char)
    (d' : Int) (n : Nat) :
    countAt (indexedUpTo e n) word' d' =
      countAt e.root word' d' +
        (if 0 ≤ d' ∧ d'.toNat < n then
          (insertedCount (tokenizeQuery (e.documentText d') []) word' : Int) else 0) := by
  induction n with
  | zero => simp [indexedUpTo]
  | succ n ih =>
    rw [indexedUpTo_succ, countAt_indexWords _ _ _ _ _ (indexedUpTo_ne_null e hr n), ih]
    by_cases hd : d' = (n : Int)
    · subst hd
      simp
    · have h1 : (0 ≤ d' ∧ d'.toNat < n + 1) ↔ (0 ≤ d' ∧ d'.toNat < n) := by
        constructor
        · rintro ⟨h0, h1⟩
          refine ⟨h0, ?_⟩
          have : d'.toNat ≠ n := fun h => hd (by omega)
          omega
        · rintro ⟨h0, h1⟩
          exact ⟨h0, by omega⟩
      simp only [hd, if_false, add_zero, h1]

theorem countAt_load_root (documents : List (List Char)) (word : List Char) (d : Int) :
    countAt (load documents).root word d = 0 := by
  show countAt (.node (Char.ofNat 0) .null .null .null) word d = 0
  cases word with
  | nil => rw [countAt_nil]; rfl
  | cons x xs => rw [countAt_cons]; exact countAt_null xs d

theorem insertedCount_tokens (s word' : List Char) :
    insertedCount (tokenizeQuery s []) word' =
      (tokenizeQuery s []).countP (fun tok => decide (toLowerCase tok = word')) := by
  unfold insertedCount
  apply List.countP_congr
  intro tok htok
  have hne : tok ≠ [] := (tokens_nonempty_alnum s tok htok).1
  cases tok with
  | nil => exact absurd rfl hne
  | cons c cs => simp

/-- Occurrence counts of a freshly built index, for every (case-folded) word and every
document id. -/
theorem countAt_buildIndex (documents : List (List Char)) (word' : List Char) (d : Int) :
    countAt (buildIndex (load documents)).root word' d =
      if 0 ≤ d ∧ d.toNat < documents.length then
        (((tokenizeQuery (documents.getD d.toNat []) []).countP
          (fun tok => decide (toLowerCase tok = word')) : Nat) : Int)
      else 0 := by
  rw [buildIndex_root, countAt_indexedUpTo _ (by simp [load]), countAt_load_root,
    insertedCount_tokens]
  simp [load, documentText]

theorem toLower_toLower (c : Char) : c.toLower.toLower = c.toLower := by
  by_cases h : c.toNat ≥ 65 ∧ c.toNat ≤ 90
  · have hc : c = Char.ofNat c.toNat := (Char.ofNat_toNat c).symm
    obtain ⟨h1, h2⟩ := h
    generalize c.toNat = n at hc h1 h2
    subst hc
    interval_cases n <;> decide
  · have h1 : c.toLower = c := by
      unfold Char.toLower
      simp only [h, if_false]
    rw [h1, h1]

theorem toLowerCase_idem (str : List Char) : toLowerCase (toLowerCase str) = toLowerCase str := by
  simp [toLowerCase, toLower_toLower]

/-- C1: after `buildIndex` on any corpus, for every term `t` in any letter case and every
document id `d` in `[0, N)`, `countWordInDocument(t, d)` is the number of tokens of
`tokenizeQuery(text of d)` whose lowercase form equals the lowercase form of `t`; and it is at
least 1 for every term inserted for `d` (the lowercase form of a token of `d`), as for the
token itself. -/
theorem countWordInDocument_buildIndex (documents : List (List Char)) (t : List Char) (d : Nat)
    (hd : d < documents.length) :
    countWordInDocument (buildIndex (load documents)) t (d : Int) =
        (((tokenizeQuery (documents.getD d []) []).countP
          (fun tok => decide (toLowerCase tok = toLowerCase t)) : Nat) : Int) ∧
      ∀ tok ∈ tokenizeQuery (documents.getD d []) [],
        1 ≤ countWordInDocument (buildIndex (load documents)) (toLowerCase tok) (d : Int) ∧
        1 ≤ countWordInDocument (buildIndex (load documents)) tok (d : Int) := by
  have key : ∀ w : List Char, countWordInDocument (buildIndex (load documents)) w (d : Int) =
      (((tokenizeQuery (documents.getD d []) []).countP
          (fun tok => decide (toLowerCase tok = toLowerCase w)) : Nat) : Int) := by
    intro w
    rw [countWordInDocument_eq_countAt, countAt_buildIndex]
    simp [hd]
  refine ⟨key t, ?_⟩
  intro tok htok
  have hpos : ∀ w : List Char, toLowerCase tok = toLowerCase w →
      1 ≤ countWordInDocument (buildIndex (load documents)) w (d : Int) := by
    intro w hw
    rw [key w]
    have : 0 < (tokenizeQuery (documents.getD d []) []).countP
        (fun tok => decide (toLowerCase tok = toLowerCase w)) :=
      List.countP_pos_iff.mpr ⟨tok, htok, by simpa using hw⟩
    exact_mod_cast this
  exact ⟨hpos _ (toLowerCase_idem tok).symm, hpos _ rfl⟩

/-- Instance of C1 on the corpus of Scenario A, term "CAT", document 2. -/
theorem countWordInDocument_buildIndex_witness :
    (2 < ["the cat sat".toList, "the dog sat".toList, "the cat ran".toList].length) ∧
    countWordInDocument
        (buildIndex (load ["the cat sat".toList, "the dog sat".toList, "the cat ran".toList]))
        "CAT".toList ((2 : Nat) : Int) =
      (((tokenizeQuery
          (["the cat sat".toList, "the dog sat".toList, "the cat ran".toList].getD 2 []) []).countP
        (fun tok => decide (toLowerCase tok = toLowerCase "CAT".toList)) : Nat) : Int) :=
  ⟨by decide,
    (countWordInDocument_buildIndex
      ["the cat sat".toList, "the dog sat".toList, "the cat ran".toList] "CAT".toList 2
      (by decide)).1⟩

end SearchEngine

/-! ### Max-heap: array lemmas -/

namespace SearchEngine.MaxHeap

variable {S : Type} [LinearOrderedField S]

theorem nodeAt_set (heap : List (HeapNode S)) (i j : Nat) (x : HeapNode S)
    (hi : i < heap.length) :
    nodeAt (heap.set i x) j = if j = i then x else nodeAt heap j := by
  unfold nodeAt
  rw [List.getD_eq_getElem?_getD, List.getD_eq_getElem?_getD, List.getElem?_set]
  by_cases hij : i = j
  · subst hij
    simp [hi]
  · have hji : ¬ j = i := fun h => hij h.symm
    simp [hij, hji]

theorem nodeAt_take (heap : List (HeapNode S)) (n i : Nat) (hi : i < n) :
    nodeAt (heap.take n) i = nodeAt heap i := by
  unfold nodeAt
  rw [List.getD_eq_getElem?_getD, List.getD_eq_getElem?_getD, List.getElem?_take_of_lt hi]

theorem nodeAt_mem (heap : List (HeapNode S)) (i : Nat) (hi : i < heap.length) :
    nodeAt heap i ∈ heap := by
  unfold nodeAt
  rw [List.getD_eq_getElem?_getD, List.getElem?_eq_getElem hi]
  exact List.getElem_mem hi

theorem exists_nodeAt_of_mem (heap : List (HeapNode S)) (x : HeapNode S) (hx : x ∈ heap) :
    ∃ i, i < heap.length ∧ nodeAt heap i = x := by
  obtain ⟨i, hi, hget⟩ := List.getElem_of_mem hx
  refine ⟨i, hi, ?_⟩
  unfold nodeAt
  rw [List.getD_eq_getElem?_getD, List.getElem?_eq_getElem hi]
  simpa using hget

theorem length_swapNodes (heap : List (HeapNode S)) (i j : Nat) :
    (swapNodes heap i j).length = heap.length := by
  simp [swapNodes]

theorem nodeAt_swapNodes (heap : List (HeapNode S)) (i j x : Nat) (hi : i < heap.length)
    (hj : j < heap.length) :
    nodeAt (swapNodes heap i j) x =
      if x = j then nodeAt heap i else if x = i then nodeAt heap j else nodeAt heap x := by
  unfold swapNodes
  simp only
  rw [nodeAt_set _ _ _ _ (by simpa using hj), nodeAt_set _ _ _ _ hi]

theorem perm_set (heap : List (HeapNode S)) (i : Nat) (a : HeapNode S) (hi : i < heap.length) :
    (nodeAt heap i :: heap.set i a).Perm (a :: heap) := by
  induction heap generalizing i with
  | nil => simp at hi
  | cons x xs ih =>
    cases i with
    | zero => exact List.Perm.swap _ _ _
    | succ i =>
      have hi' : i < xs.length := by simpa using hi
      have h1 : nodeAt (x :: xs) (i + 1) = nodeAt xs i := by simp [nodeAt]
      rw [h1, List.set_cons_succ]
      exact (List.Perm.swap _ _ _).trans (((ih i hi').cons x).trans (List.Perm.swap _ _ _))

theorem perm_swapNodes (heap : List (HeapNode S)) (i j : Nat) (hi : i < heap.length)
    (hj : j < heap.length) : (swapNodes heap i j).Perm heap := by
  have h1 := perm_set heap i (nodeAt heap j) hi
  have h2 := perm_set (heap.set i (nodeAt heap j)) j (nodeAt heap i) (by simpa using hj)
  have h3 : nodeAt (heap.set i (nodeAt heap j)) j = nodeAt heap j := by
    rw [nodeAt_set _ _ _ _ hi]
    split <;> rfl
  rw [h3] at h2
  exact (h2.trans h1).cons_inv

theorem take_swapNodes (heap : List (HeapNode S)) (n i j : Nat) (hi : i < n) (hj : j < n) :
    (swapNodes heap i j).take n = swapNodes (heap.take n) i j := by
  unfold swapNodes
  simp only
  rw [List.set_take, List.set_take, nodeAt_take _ _ _ hi, nodeAt_take _ _ _ hj]

theorem perm_take_swapNodes (heap : List (HeapNode S)) (n i j : Nat) (hi : i < n) (hj : j < n)
    (hn : n ≤ heap.length) : ((swapNodes heap i j).take n).Perm (heap.take n) := by
  rw [take_swapNodes heap n i j hi hj]
  apply perm_swapNodes
  · rw [List.length_take]; omega
  · rw [List.length_take]; omega

/-! ### Max-heap: sift-up and sift-down keep the slots and the stored candidates -/

theorem heapifyUp_zero (h : MaxHeap S) : heapifyUp h 0 = h := by
  rw [heapifyUp]; simp

theorem heapifyUp_swap (h : MaxHeap S) (index : Nat) (hpos : index ≠ 0)
    (hlt : (nodeAt h.heap (parent index)).score < (nodeAt h.heap index).score) :
    heapifyUp h index =
      heapifyUp { h with heap := swapNodes h.heap (parent index) index } (parent index) := by
  rw [heapifyUp]; simp [hpos, hlt]

theorem heapifyUp_stop (h : MaxHeap S) (index : Nat) (hpos : index ≠ 0)
    (hlt : ¬ (nodeAt h.heap (parent index)).score < (nodeAt h.heap index).score) :
    heapifyUp h index = h := by
  rw [heapifyUp]; simp [hpos, hlt]

theorem heapifyDown_swap (h : MaxHeap S) (index : Nat) (hne : largestOf h index ≠ index) :
    heapifyDown h index =
      heapifyDown { h with heap := swapNodes h.heap index (largestOf h index) }
        (largestOf h index) := by
  rw [heapifyDown]; simp [hne]

theorem heapifyDown_stop (h : MaxHeap S) (index : Nat) (heq : largestOf h index = index) :
    heapifyDown h index = h := by
  rw [heapifyDown]; simp [heq]

theorem parent_lt (index : Nat) (hpos : index ≠ 0) : parent index < index := by
  unfold parent; omega

theorem heapifyUp_frame (h : MaxHeap S) (index : Nat) :
    (heapifyUp h index).capacity = h.capacity ∧ (heapifyUp h index).size = h.size ∧
      (heapifyUp h index).heap.length = h.heap.length := by
  induction h, index using heapifyUp.induct with
  | case1 h => rw [heapifyUp_zero]; exact ⟨rfl, rfl, rfl⟩
  | case2 h index hpos parentIndex hlt ih =>
    rw [heapifyUp_swap h index hpos hlt]
    refine ⟨ih.1, ih.2.1, ?_⟩
    rw [ih.2.2]
    exact length_swapNodes _ _ _
  | case3 h index hpos parentIndex hlt =>
    rw [heapifyUp_stop h index hpos hlt]; exact ⟨rfl, rfl, rfl⟩

theorem heapifyUp_perm (h : MaxHeap S) (index n : Nat) (hin : index < n)
    (hn : n ≤ h.heap.length) : ((heapifyUp h index).heap.take n).Perm (h.heap.take n) := by
  induction h, index using heapifyUp.induct with
  | case1 h => rw [heapifyUp_zero]
  | case2 h index hpos parentIndex hlt ih =>
    rw [heapifyUp_swap h index hpos hlt]
    have hp : parent index < n := lt_trans (parent_lt index hpos) hin
    refine (ih hp ?_).trans ?_
    · simpa [length_swapNodes] using hn
    · exact perm_take_swapNodes h.heap n (parent index) index hp hin hn
  | case3 h index hpos parentIndex hlt =>
    rw [heapifyUp_stop h index hpos hlt]

theorem largestOf_cases (h : MaxHeap S) (index : Nat) :
    largestOf h index = index ∨
      (index < largestOf h index ∧ largestOf h index < h.size ∧
        (largestOf h index = leftChild index ∨ largestOf h index = rightChild index)) := by
  unfold largestOf leftChild rightChild
  simp only
  split_ifs with h1 h2 h2
  · right; exact ⟨by omega, h2.1, Or.inr rfl⟩
  · right; exact ⟨by omega, h1.1, Or.inl rfl⟩
  · right; exact ⟨by omega, h2.1, Or.inr rfl⟩
  · left; rfl

theorem heapifyDown_frame (h : MaxHeap S) (index : Nat) :
    (heapifyDown h index).capacity = h.capacity ∧ (heapifyDown h index).size = h.size ∧
      (heapifyDown h index).heap.length = h.heap.length := by
  induction h, index using heapifyDown.induct with
  | case1 h index largest hne ih =>
    rw [heapifyDown_swap h index hne]
    refine ⟨ih.1, ih.2.1, ?_⟩
    rw [ih.2.2]
    exact length_swapNodes _ _ _
  | case2 h index largest heq =>
    rw [heapifyDown_stop h index (by simpa using heq)]; exact ⟨rfl, rfl, rfl⟩

theorem heapifyDown_perm (h : MaxHeap S) (index : Nat) (hn : h.size ≤ h.heap.length) :
    ((heapifyDown h index).heap.take h.size).Perm (h.heap.take h.size) := by
  induction h, index using heapifyDown.induct with
  | case1 h index largest hne ih =>
    rw [heapifyDown_swap h index hne]
    rcases largestOf_cases h index with heq | ⟨hlt0, hlt, _⟩
    · exact absurd heq hne
    · refine (ih ?_).trans ?_
      · simpa [length_swapNodes] using hn
      · exact perm_take_swapNodes h.heap h.size index (largestOf h index) (by omega) hlt hn
  | case2 h index largest heq =>
    rw [heapifyDown_stop h index (by simpa using heq)]

/-! ### Max-heap: the ordering invariant -/

theorem parent_eq_iff (i k : Nat) (hi : 0 < i) :
    parent i = k ↔ i = leftChild k ∨ i = rightChild k := by
  unfold parent leftChild rightChild
  omega

theorem swap_right (heap : List (HeapNode S)) (i j : Nat) (hi : i < heap.length)
    (hj : j < heap.length) : nodeAt (swapNodes heap i j) j = nodeAt heap i := by
  rw [nodeAt_swapNodes heap i j j hi hj]; simp

theorem swap_left (heap : List (HeapNode S)) (i j : Nat) (hi : i < heap.length)
    (hj : j < heap.length) : nodeAt (swapNodes heap i j) i = nodeAt heap j := by
  rw [nodeAt_swapNodes heap i j i hi hj]
  by_cases hij : i = j
  · subst hij; simp
  · simp [hij]

theorem swap_other (heap : List (HeapNode S)) (i j x : Nat) (hi : i < heap.length)
    (hj : j < heap.length) (hxi : x ≠ i) (hxj : x ≠ j) :
    nodeAt (swapNodes heap i j) x = nodeAt heap x := by
  rw [nodeAt_swapNodes heap i j x hi hj]; simp [hxi, hxj]

theorem heapifyUp_ordered (h : MaxHeap S) (k n : Nat) (hk : k < n) (hn : n ≤ h.heap.length)
    (hinv : UpInv h.heap n k) : HeapOrdered (heapifyUp h k).heap n := by
  induction h, k using heapifyUp.induct with
  | case1 h =>
    rw [heapifyUp_zero]
    intro i hi0 hin
    exact hinv.1 i hi0 hin (by omega)
  | case2 h k hpos parentIndex hlt ih =>
    rw [heapifyUp_swap h k hpos hlt]
    have hpk : parent k < k := parent_lt k hpos
    have hkl : k < h.heap.length := lt_of_lt_of_le hk hn
    have hpl : parent k < h.heap.length := lt_trans hpk hkl
    have hk0 : 0 < k := Nat.pos_of_ne_zero hpos
    apply ih (lt_trans hpk hk) (by simpa [length_swapNodes] using hn)
    obtain ⟨H1, H2⟩ := hinv
    refine ⟨?_, ?_⟩
    · intro i hi0 hin hip
      show (nodeAt (swapNodes h.heap (parent k) k) i).score ≤
        (nodeAt (swapNodes h.heap (parent k) k) (parent i)).score
      by_cases hik : i = k
      · subst hik
        rw [swap_right _ _ _ hpl hkl, swap_left _ _ _ hpl hkl]
        exact le_of_lt hlt
      · rw [swap_other _ _ _ i hpl hkl hip hik]
        by_cases hpik : parent i = k
        · rw [hpik, swap_right _ _ _ hpl hkl]
          exact H2 i hi0 hin hpik hk0
        · by_cases hpip : parent i = parent k
          · rw [hpip, swap_left _ _ _ hpl hkl]
            have := H1 i hi0 hin hik
            rw [hpip] at this
            exact le_trans this (le_of_lt hlt)
          · rw [swap_other _ _ _ (parent i) hpl hkl hpip hpik]
            exact H1 i hi0 hin hik
    · intro i hi0 hin hpi hp0
      show (nodeAt (swapNodes h.heap (parent k) k) i).score ≤
        (nodeAt (swapNodes h.heap (parent k) k) (parent (parent k))).score
      have hppk : parent (parent k) < parent k := parent_lt _ (by omega)
      rw [swap_other _ _ _ (parent (parent k)) hpl hkl (by omega) (by omega)]
      have hpn : parent k < n := lt_trans hpk hk
      have hp1 := H1 (parent k) hp0 hpn (by omega)
      by_cases hik : i = k
      · subst hik
        rw [swap_right _ _ _ hpl hkl]
        exact hp1
      · have hip : i ≠ parent k := by
          have := parent_lt i (by omega)
          omega
        rw [swap_other _ _ _ i hpl hkl hip hik]
        have := H1 i hi0 hin hik
        rw [hpi] at this
        exact le_trans this hp1
  | case3 h k hpos parentIndex hlt =>
    rw [heapifyUp_stop h k hpos hlt]
    intro i hi0 hin
    by_cases hik : i = k
    · subst hik
      exact not_lt.mp hlt
    · exact hinv.1 i hi0 hin hik

theorem largestOf_spec (h : MaxHeap S) (k : Nat) :
    (nodeAt h.heap k).score ≤ (nodeAt h.heap (largestOf h k)).score ∧
    (leftChild k < h.size →
      (nodeAt h.heap (leftChild k)).score ≤ (nodeAt h.heap (largestOf h k)).score) ∧
    (rightChild k < h.size →
      (nodeAt h.heap (rightChild k)).score ≤ (nodeAt h.heap (largestOf h k)).score) := by
  unfold largestOf
  simp only
  split_ifs with h1 h2 h2
  · refine ⟨le_of_lt (lt_trans h1.2 h2.2), fun _ => le_of_lt h2.2, fun _ => le_refl _⟩
  · refine ⟨le_of_lt h1.2, fun _ => le_refl _, fun hr => ?_⟩
    exact not_lt.mp (fun hc => h2 ⟨hr, hc⟩)
  · refine ⟨le_of_lt h2.2, fun hl => ?_, fun _ => le_refl _⟩
    exact le_trans (not_lt.mp (fun hc => h1 ⟨hl, hc⟩)) (le_of_lt h2.2)
  · refine ⟨le_refl _, fun hl => ?_, fun hr => ?_⟩
    · exact not_lt.mp (fun hc => h1 ⟨hl, hc⟩)
    · exact not_lt.mp (fun hc => h2 ⟨hr, hc⟩)

theorem heapifyDown_ordered (h : MaxHeap S) (k : Nat) (hn : h.size ≤ h.heap.length)
    (hinv : DownInv h.heap h.size k) : HeapOrdered (heapifyDown h k).heap h.size := by
  induction h, k using heapifyDown.induct with
  | case1 h k largest hne ih =>
    rw [heapifyDown_swap h k hne]
    obtain ⟨hs1, hs2, hs3⟩ := largestOf_spec h k
    rcases largestOf_cases h k with heq | ⟨hkm, hms, hchild⟩
    · exact absurd heq hne
    · have hml : largestOf h k < h.heap.length := lt_of_lt_of_le hms hn
      have hkl : k < h.heap.length := lt_trans hkm hml
      have hpm : parent (largestOf h k) = k :=
        (parent_eq_iff _ _ (by omega)).mpr hchild
      apply ih (by simpa [length_swapNodes] using hn)
      obtain ⟨H1, H2⟩ := hinv
      refine ⟨?_, ?_⟩
      · intro i hi0 hin hpim
        show (nodeAt (swapNodes h.heap k (largestOf h k)) i).score ≤
          (nodeAt (swapNodes h.heap k (largestOf h k)) (parent i)).score
        by_cases hpik : parent i = k
        · rw [hpik, swap_left _ _ _ hkl hml]
          by_cases him : i = largestOf h k
          · rw [him, swap_right _ _ _ hkl hml]
            exact hs1
          · have hik : i ≠ k := by
              have := parent_lt i (by omega)
              omega
            rw [swap_other _ _ _ i hkl hml hik him]
            rcases (parent_eq_iff i k hi0).mp hpik with hl | hr
            · rw [hl]; exact hs2 (by rw [← hl]; exact hin)
            · rw [hr]; exact hs3 (by rw [← hr]; exact hin)
        · rw [swap_other _ _ _ (parent i) hkl hml hpik hpim]
          by_cases hik : i = k
          · subst hik
            rw [swap_left _ _ _ hkl hml]
            exact H2 (largestOf h i) (by omega) hms hpm hi0
          · have him : i ≠ largestOf h k := by
              intro hc
              rw [hc] at hpik
              exact hpik hpm
            rw [swap_other _ _ _ i hkl hml hik him]
            exact H1 i hi0 hin hpik
      · intro i hi0 hin hpim hm0
        show (nodeAt (swapNodes h.heap k (largestOf h k)) i).score ≤
          (nodeAt (swapNodes h.heap k (largestOf h k)) (parent (largestOf h k))).score
        rw [hpm, swap_left _ _ _ hkl hml]
        have hilt := parent_lt i (by omega)
        have hik : i ≠ k := by omega
        have him : i ≠ largestOf h k := by omega
        rw [swap_other _ _ _ i hkl hml hik him]
        have := H1 i hi0 hin (by omega)
        rw [hpim] at this
        exact this
  | case2 h k largest heq =>
    have heq' : largestOf h k = k := by simpa using heq
    rw [heapifyDown_stop h k heq']
    obtain ⟨_, hs2, hs3⟩ := largestOf_spec h k
    rw [heq'] at hs2 hs3
    intro i hi0 hin
    by_cases hpik : parent i = k
    · rw [hpik]
      rcases (parent_eq_iff i k hi0).mp hpik with hl | hr
      · rw [hl]; exact hs2 (by rw [← hl]; exact hin)
      · rw [hr]; exact hs3 (by rw [← hr]; exact hin)
    · exact hinv.1 i hi0 hin hpik

theorem HeapOrdered.root_max (heap : List (HeapNode S)) (n : Nat) (ho : HeapOrdered heap n) :
    ∀ i, i < n → (nodeAt heap i).score ≤ (nodeAt heap 0).score := by
  intro i
  induction i using Nat.strong_induction_on with
  | _ i ih =>
    intro hin
    by_cases hi0 : i = 0
    · subst hi0; exact le_refl _
    · have hp := parent_lt i hi0
      exact le_trans (ho i (Nat.pos_of_ne_zero hi0) hin) (ih (parent i) hp (lt_trans hp hin))

/-! ### Max-heap: `insert`, `extractMax` and draining -/

theorem take_succ_set {α : Type} (l : List α) (n : Nat) (x : α) (hn : n < l.length) :
    (l.set n x).take (n + 1) = l.take n ++ [x] := by
  induction l generalizing n with
  | nil => simp at hn
  | cons a as ih =>
    cases n with
    | zero => simp
    | succ n =>
      have hn' : n < as.length := by simpa using hn
      simp [ih n hn']

theorem new_inv (k : Nat) : Inv (new k : MaxHeap S) := by
  refine ⟨by simp [new], by simp [new], ?_⟩
  intro i _ hin
  simp [new] at hin

theorem held_new (k : Nat) : held (new k : MaxHeap S) = [] := by
  simp [held, new]

theorem insert_full (h : MaxHeap S) (d : Int) (s : S) (hf : h.isFull = true) :
    insert h d s = h := by
  simp [insert, hf]

theorem insert_not_full (h : MaxHeap S) (d : Int) (s : S) (hf : h.isFull = false)
    (hinv : Inv h) :
    Inv (insert h d s) ∧ (insert h d s).size = h.size + 1 ∧
      (insert h d s).capacity = h.capacity ∧
      (held (insert h d s)).Perm (⟨d, s⟩ :: held h) := by
  obtain ⟨hlen, hsz, hord⟩ := hinv
  have hlt : h.size < h.capacity := by
    have : h.size ≠ h.capacity := by simpa [isFull] using hf
    omega
  have hsl : h.size < h.heap.length := by omega
  have hfr := heapifyUp_frame { h with heap := h.heap.set h.size ⟨d, s⟩ } h.size
  simp only [List.length_set] at hfr
  have hup : UpInv (h.heap.set h.size ⟨d, s⟩) (h.size + 1) h.size := by
    refine ⟨?_, ?_⟩
    · intro i hi0 hin hne
      have hp := parent_lt i (by omega)
      rw [nodeAt_set _ _ _ _ hsl, nodeAt_set _ _ _ _ hsl, if_neg hne, if_neg (by omega)]
      exact hord i hi0 (by omega)
    · intro i hi0 hin hpi _
      have hp := parent_lt i (by omega)
      omega
  have hord' := heapifyUp_ordered { h with heap := h.heap.set h.size ⟨d, s⟩ } h.size
    (h.size + 1) (by omega) (by simpa using hsl) hup
  have hperm := heapifyUp_perm { h with heap := h.heap.set h.size ⟨d, s⟩ } h.size
    (h.size + 1) (by omega) (by simpa using hsl)
  have htake : (h.heap.set h.size ⟨d, s⟩).take (h.size + 1) = h.heap.take h.size ++ [⟨d, s⟩] :=
    take_succ_set h.heap h.size ⟨d, s⟩ hsl
  simp only [insert, hf, Bool.false_eq_true, if_false]
  refine ⟨⟨?_, ?_, ?_⟩, ?_, ?_, ?_⟩
  · show (heapifyUp _ h.size).heap.length = (heapifyUp _ h.size).capacity
    rw [hfr.2.2, hfr.1]; exact hlen
  · show (heapifyUp _ h.size).size + 1 ≤ (heapifyUp _ h.size).capacity
    rw [hfr.2.1, hfr.1]; exact hlt
  · show HeapOrdered (heapifyUp _ h.size).heap ((heapifyUp _ h.size).size + 1)
    rw [hfr.2.1]; exact hord'
  · show (heapifyUp _ h.size).size + 1 = h.size + 1
    rw [hfr.2.1]
  · show (heapifyUp _ h.size).capacity = h.capacity
    rw [hfr.1]
  · show ((heapifyUp _ h.size).heap.take ((heapifyUp _ h.size).size + 1)).Perm _
    rw [hfr.2.1]
    refine hperm.trans ?_
    show ((h.heap.set h.size ⟨d, s⟩).take (h.size + 1)).Perm _
    rw [htake]
    exact List.perm_append_comm

theorem extractMax_empty (h : MaxHeap S) (he : h.isEmpty = true) :
    extractMax h = (emptyNode, h) := by
  simp [extractMax, he]

theorem extractMax_not_empty (h : MaxHeap S) (he : h.isEmpty = false) (hinv : Inv h) :
    (extractMax h).1 = nodeAt h.heap 0 ∧ Inv (extractMax h).2 ∧
      (extractMax h).2.size = h.size - 1 ∧ (extractMax h).2.capacity = h.capacity ∧
      (held h).Perm ((extractMax h).1 :: held (extractMax h).2) ∧
      ∀ x ∈ held h, x.score ≤ (extractMax h).1.score := by
  obtain ⟨hlen, hsz, hord⟩ := hinv
  have hpos : 0 < h.size := by
    have : h.size ≠ 0 := by simpa [isEmpty] using he
    omega
  have h0l : 0 < h.heap.length := by omega
  have hfr := heapifyDown_frame
    { h with heap := h.heap.set 0 (nodeAt h.heap (h.size - 1)), size := h.size - 1 } 0
  simp only [List.length_set] at hfr
  have hdown : DownInv (h.heap.set 0 (nodeAt h.heap (h.size - 1))) (h.size - 1) 0 := by
    refine ⟨?_, ?_⟩
    · intro i hi0 hin hne
      rw [nodeAt_set _ _ _ _ h0l, nodeAt_set _ _ _ _ h0l, if_neg (by omega), if_neg hne]
      exact hord i hi0 (by omega)
    · intro i _ _ _ h00
      omega
  have hord' := heapifyDown_ordered
    { h with heap := h.heap.set 0 (nodeAt h.heap (h.size - 1)), size := h.size - 1 } 0
    (by simp only [List.length_set]; omega) hdown
  have hperm := heapifyDown_perm
    { h with heap := h.heap.set 0 (nodeAt h.heap (h.size - 1)), size := h.size - 1 } 0
    (by simp only [List.length_set]; omega)
  simp only [extractMax, he, Bool.false_eq_true, if_false]
  refine ⟨trivial, ⟨?_, ?_, ?_⟩, ?_, ?_, ?_, ?_⟩
  · show (heapifyDown _ 0).heap.length = (heapifyDown _ 0).capacity
    rw [hfr.2.2, hfr.1]; exact hlen
  · show (heapifyDown _ 0).size ≤ (heapifyDown _ 0).capacity
    rw [hfr.2.1, hfr.1]
    show h.size - 1 ≤ h.capacity
    omega
  · show HeapOrdered (heapifyDown _ 0).heap (heapifyDown _ 0).size
    rw [hfr.2.1]; exact hord'
  · show (heapifyDown _ 0).size = h.size - 1
    rw [hfr.2.1]
  · show (heapifyDown _ 0).capacity = h.capacity
    rw [hfr.1]
  · show (h.heap.take h.size).Perm
      (nodeAt h.heap 0 :: (heapifyDown _ 0).heap.take (heapifyDown _ 0).size)
    rw [hfr.2.1]
    refine List.Perm.trans ?_ ((hperm.symm).cons _)
    show (h.heap.take h.size).Perm
      (nodeAt h.heap 0 :: (h.heap.set 0 (nodeAt h.heap (h.size - 1))).take (h.size - 1))
    have hsplit : h.heap.take h.size =
        h.heap.take (h.size - 1) ++ [nodeAt h.heap (h.size - 1)] := by
      have h1 : h.size = (h.size - 1) + 1 := by omega
      have h2 : h.size - 1 < h.heap.length := by omega
      conv_lhs => rw [h1, List.take_succ]
      simp [nodeAt, List.getD_eq_getElem?_getD, List.getElem?_eq_getElem h2]
    rw [hsplit, List.set_take]
    by_cases hone : h.size - 1 = 0
    · rw [hone]
      simp
    · have hl : 0 < (h.heap.take (h.size - 1)).length := by
        rw [List.length_take]; omega
      have hps := perm_set (h.heap.take (h.size - 1)) 0 (nodeAt h.heap (h.size - 1)) hl
      rw [nodeAt_take _ _ _ (by omega)] at hps
      exact List.perm_append_comm.trans hps.symm
  · intro x hx
    have hx' : x ∈ h.heap.take h.size := hx
    obtain ⟨i, hi, hxi⟩ := exists_nodeAt_of_mem _ x hx'
    rw [List.length_take] at hi
    rw [nodeAt_take _ _ _ (by omega)] at hxi
    rw [← hxi]
    exact HeapOrdered.root_max h.heap h.size hord i (by omega)

theorem insertAll_cons (h : MaxHeap S) (c : HeapNode S) (cs : List (HeapNode S)) :
    insertAll h (c :: cs) = insertAll (h.insert c.document_id c.score) cs := rfl

theorem insertAll_spec (cands : List (HeapNode S)) :
    ∀ h : MaxHeap S, Inv h →
      Inv (insertAll h cands) ∧ (insertAll h cands).capacity = h.capacity ∧
        (insertAll h cands).size = min h.capacity (h.size + cands.length) ∧
        (held (insertAll h cands)).Perm (held h ++ cands.take (h.capacity - h.size)) := by
  induction cands with
  | nil =>
    intro h hinv
    refine ⟨hinv, rfl, ?_, by simp [insertAll]⟩
    have := hinv.2.1
    simp [insertAll]
    omega
  | cons c cs ih =>
    intro h hinv
    rw [insertAll_cons]
    by_cases hf : h.isFull = true
    · rw [insert_full h _ _ hf]
      obtain ⟨h1, h2, h3, h4⟩ := ih h hinv
      have hcap : h.size = h.capacity := by simpa [isFull] using hf
      refine ⟨h1, h2, ?_, ?_⟩
      · rw [h3]; simp only [List.length_cons]; omega
      · rw [hcap] at h4 ⊢
        simpa using h4
    · have hf' : h.isFull = false := by simpa using hf
      obtain ⟨i1, i2, i3, i4⟩ := insert_not_full h c.document_id c.score hf' hinv
      obtain ⟨h1, h2, h3, h4⟩ := ih _ i1
      have hne : h.size ≠ h.capacity := by simpa [isFull] using hf'
      have hle := hinv.2.1
      refine ⟨h1, by rw [h2, i3], ?_, ?_⟩
      · rw [h3, i2, i3]; simp only [List.length_cons]; omega
      · rw [i2, i3] at h4
        have hsub : h.capacity - h.size = (h.capacity - (h.size + 1)) + 1 := by omega
        rw [hsub, List.take_succ_cons]
        refine h4.trans ?_
        refine (List.Perm.append_right _ i4).trans ?_
        simpa using (@List.perm_middle _ c (held h) (cs.take (h.capacity - (h.size + 1)))).symm

theorem extractAll_spec (n : Nat) :
    ∀ h : MaxHeap S, Inv h → h.size ≤ n →
      (extractAll n h).2.isEmpty = true ∧ ((extractAll n h).1).Perm (held h) ∧
        ((extractAll n h).1).Pairwise (fun a b => b.score ≤ a.score) := by
  induction n with
  | zero =>
    intro h _ hsz
    have h0 : h.size = 0 := by omega
    simp [extractAll, isEmpty, held, h0]
  | succ n ih =>
    intro h hinv hsz
    by_cases he : h.isEmpty = true
    · have h0 : h.size = 0 := by simpa [isEmpty] using he
      simp [extractAll, he, held, h0]
    · have he' : h.isEmpty = false := by simpa using he
      obtain ⟨_, e2, e3, _, e5, e6⟩ := extractMax_not_empty h he' hinv
      obtain ⟨r1, r2, r3⟩ := ih (extractMax h).2 e2 (by rw [e3]; omega)
      simp only [extractAll, he', Bool.false_eq_true, if_false]
      refine ⟨r1, (e5.trans ((r2.symm).cons _)).symm, ?_⟩
      rw [List.pairwise_cons]
      refine ⟨?_, r3⟩
      intro b hb
      apply e6
      exact e5.symm.subset (List.mem_cons_of_mem _ (r2.subset hb))

/-- C4: for every capacity `k` (so for every `k > 0`) and every sequence of `insert` calls on
a fresh heap, draining by repeated `extractMax` empties the heap, the extracted scores are in
non-increasing order (every extracted score is at least every later one), and the extracted
candidates are exactly the multiset of candidates the heap held. -/
theorem drain_sorted_and_complete (k : Nat) (cands : List (HeapNode S)) :
    ((drain (insertAll (new k) cands)).1).Pairwise (fun a b => b.score ≤ a.score) ∧
      ((drain (insertAll (new k) cands)).1).Perm (held (insertAll (new k) cands)) ∧
      (drain (insertAll (new k) cands)).2.isEmpty = true := by
  have hinv := (insertAll_spec cands (new k) (new_inv k)).1
  obtain ⟨r1, r2, r3⟩ := extractAll_spec (insertAll (new k) cands).size _ hinv (le_refl _)
  exact ⟨r3, r2, r1⟩

/-! ### Max-heap: ties (C5) and a full heap (C2) -/

theorem relabel_emptyNode (f : Int → Int) (hf : f (-1) = -1) :
    relabel f (emptyNode : HeapNode S) = emptyNode := by
  simp [relabel, emptyNode, hf]

theorem nodeAt_map (f : Int → Int) (hf : f (-1) = -1) (heap : List (HeapNode S)) (i : Nat) :
    nodeAt (heap.map (relabel f)) i = relabel f (nodeAt heap i) := by
  unfold nodeAt
  rw [List.getD_eq_getElem?_getD, List.getD_eq_getElem?_getD, List.getElem?_map]
  cases heap[i]? with
  | none => simp [relabel_emptyNode f hf]
  | some x => rfl

theorem swapNodes_map (f : Int → Int) (hf : f (-1) = -1) (heap : List (HeapNode S))
    (i j : Nat) : swapNodes (heap.map (relabel f)) i j = (swapNodes heap i j).map (relabel f) := by
  unfold swapNodes
  simp only [nodeAt_map f hf, List.map_set]

theorem heapifyUp_map (f : Int → Int) (hf : f (-1) = -1) (h : MaxHeap S) (index : Nat) :
    heapifyUp (mapHeap f h) index = mapHeap f (heapifyUp h index) := by
  induction h, index using heapifyUp.induct with
  | case1 h => rw [heapifyUp_zero, heapifyUp_zero]
  | case2 h index hpos parentIndex hlt ih =>
    have hlt' : (nodeAt (mapHeap f h).heap (parent index)).score <
        (nodeAt (mapHeap f h).heap index).score := by
      simpa [mapHeap, nodeAt_map f hf, relabel] using hlt
    rw [heapifyUp_swap h index hpos hlt, heapifyUp_swap _ index hpos hlt', ← ih]
    simp only [mapHeap, swapNodes_map f hf]
  | case3 h index hpos parentIndex hlt =>
    have hlt' : ¬ (nodeAt (mapHeap f h).heap (parent index)).score <
        (nodeAt (mapHeap f h).heap index).score := by
      simpa [mapHeap, nodeAt_map f hf, relabel] using hlt
    rw [heapifyUp_stop h index hpos hlt, heapifyUp_stop _ index hpos hlt']

theorem largestOf_map (f : Int → Int) (hf : f (-1) = -1) (h : MaxHeap S) (index : Nat) :
    largestOf (mapHeap f h) index = largestOf h index := by
  simp [largestOf, mapHeap, nodeAt_map f hf, relabel]

theorem heapifyDown_map (f : Int → Int) (hf : f (-1) = -1) (h : MaxHeap S) (index : Nat) :
    heapifyDown (mapHeap f h) index = mapHeap f (heapifyDown h index) := by
  induction h, index using heapifyDown.induct with
  | case1 h index largest hne ih =>
    have hne' : largestOf (mapHeap f h) index ≠ index := by
      rw [largestOf_map f hf]; exact hne
    rw [heapifyDown_swap h index hne, heapifyDown_swap _ index hne', largestOf_map f hf, ← ih]
    simp only [mapHeap, swapNodes_map f hf]
  | case2 h index largest heq =>
    have heq0 : largestOf h index = index := by simpa using heq
    have heq' : largestOf (mapHeap f h) index = index := by
      rw [largestOf_map f hf]; exact heq0
    rw [heapifyDown_stop h index heq0, heapifyDown_stop _ index heq']

theorem insert_map (f : Int → Int) (hf : f (-1) = -1) (h : MaxHeap S) (d : Int) (s : S) :
    insert (mapHeap f h) (f d) s = mapHeap f (insert h d s) := by
  by_cases hfull : h.isFull = true
  · have hfull' : (mapHeap f h).isFull = true := hfull
    rw [insert_full h d s hfull, insert_full _ _ _ hfull']
  · have hfull0 : h.isFull = false := by simpa using hfull
    have hfull' : (mapHeap f h).isFull = false := hfull0
    have hset : (⟨(mapHeap f h).heap.set (mapHeap f h).size ⟨f d, s⟩, (mapHeap f h).capacity,
        (mapHeap f h).size⟩ : MaxHeap S) =
        mapHeap f ⟨h.heap.set h.size ⟨d, s⟩, h.capacity, h.size⟩ := by
      simp [mapHeap, List.map_set, relabel]
    have key := heapifyUp_map f hf ⟨h.heap.set h.size ⟨d, s⟩, h.capacity, h.size⟩ h.size
    rw [← hset] at key
    have hsz : (mapHeap f h).size = h.size := rfl
    simp only [insert, hfull0, hfull', Bool.false_eq_true, if_false]
    rw [hsz] at key ⊢
    rw [key]
    rfl

theorem extractMax_map (f : Int → Int) (hf : f (-1) = -1) (h : MaxHeap S) :
    extractMax (mapHeap f h) = (relabel f (extractMax h).1, mapHeap f (extractMax h).2) := by
  by_cases he : h.isEmpty = true
  · have he' : (mapHeap f h).isEmpty = true := he
    rw [extractMax_empty h he, extractMax_empty _ he', relabel_emptyNode f hf]
  · have he0 : h.isEmpty = false := by simpa using he
    have he' : (mapHeap f h).isEmpty = false := he0
    have hset : (⟨(mapHeap f h).heap.set 0 (nodeAt (mapHeap f h).heap ((mapHeap f h).size - 1)),
        (mapHeap f h).capacity, (mapHeap f h).size - 1⟩ : MaxHeap S) =
        mapHeap f ⟨h.heap.set 0 (nodeAt h.heap (h.size - 1)), h.capacity, h.size - 1⟩ := by
      simp [mapHeap, List.map_set, nodeAt_map f hf]
    have key := heapifyDown_map f hf ⟨h.heap.set 0 (nodeAt h.heap (h.size - 1)), h.capacity,
      h.size - 1⟩ 0
    rw [← hset] at key
    simp only [extractMax, he0, he', Bool.false_eq_true, if_false]
    rw [key]
    simp [mapHeap, nodeAt_map f hf]

theorem extractAll_map (f : Int → Int) (hf : f (-1) = -1) (n : Nat) :
    ∀ h : MaxHeap S, extractAll n (mapHeap f h) =
      ((extractAll n h).1.map (relabel f), mapHeap f (extractAll n h).2) := by
  induction n with
  | zero => intro h; rfl
  | succ n ih =>
    intro h
    by_cases he : h.isEmpty = true
    · have he' : (mapHeap f h).isEmpty = true := he
      simp [extractAll, he, he']
    · have he0 : h.isEmpty = false := by simpa using he
      have he' : (mapHeap f h).isEmpty = false := he0
      simp only [extractAll, he0, he', Bool.false_eq_true, if_false]
      rw [extractMax_map f hf]
      simp only [ih, List.map_cons]

theorem insertAll_map (f : Int → Int) (hf : f (-1) = -1) (cands : List (HeapNode S)) :
    ∀ h : MaxHeap S, insertAll (mapHeap f h) (cands.map (relabel f)) =
      mapHeap f (insertAll h cands) := by
  induction cands with
  | nil => intro h; rfl
  | cons c cs ih =>
    intro h
    rw [List.map_cons, insertAll_cons, insertAll_cons]
    have : (relabel f c).document_id = f c.document_id := rfl
    rw [this]
    have hs : (relabel f c).score = c.score := rfl
    rw [hs, insert_map f hf, ih]

theorem mapHeap_new (f : Int → Int) (hf : f (-1) = -1) (k : Nat) :
    mapHeap f (new k : MaxHeap S) = new k := by
  simp [mapHeap, new, relabel_emptyNode f hf]

theorem drain_map (f : Int → Int) (hf : f (-1) = -1) (k : Nat) (cands : List (HeapNode S)) :
    (drain (insertAll (new k) (cands.map (relabel f)))).1 =
      (drain (insertAll (new k) cands)).1.map (relabel f) := by
  have h1 : insertAll (new k) (cands.map (relabel f)) = mapHeap f (insertAll (new k) cands) := by
    rw [← insertAll_map f hf, mapHeap_new f hf]
  rw [h1]
  unfold drain
  have hsz : (mapHeap f (insertAll (new k) cands)).size = (insertAll (new k) cands).size := rfl
  rw [hsz, extractAll_map f hf]

/-- C5 (amended): draining yields the candidates in non-increasing score order, and the order
among candidates of equal score depends on the scores and the order of insertion only:
document ids are never compared, so renaming the document ids (the sentinel `-1` kept)
renames the output without reordering it. Ties are not broken by document id. -/
theorem drain_order_ignores_ids (k : Nat) (cands : List (HeapNode S)) (f : Int → Int)
    (hf : f (-1) = -1) :
    (drain (insertAll (new k) (cands.map (relabel f)))).1 =
        (drain (insertAll (new k) cands)).1.map (relabel f) ∧
      ((drain (insertAll (new k) cands)).1).Pairwise (fun a b => b.score ≤ a.score) :=
  ⟨drain_map f hf k cands,
    (extractAll_spec (insertAll (new k) cands).size _
      (insertAll_spec cands (new k) (new_inv k)).1 (le_refl _)).2.2⟩

/-- Instance of the amended C5: three candidates of equal score, ids 1 and 2 exchanged. -/
theorem drain_order_ignores_ids_witness :
    swapOneTwo (-1) = -1 ∧
    ((drain (insertAll (new 3 : MaxHeap ℚ)
        (([⟨0, 1⟩, ⟨1, 1⟩, ⟨2, 1⟩] : List (HeapNode ℚ)).map (relabel swapOneTwo)))).1 =
        (drain (insertAll (new 3 : MaxHeap ℚ) [⟨0, 1⟩, ⟨1, 1⟩, ⟨2, 1⟩])).1.map
          (relabel swapOneTwo) ∧
      ((drain (insertAll (new 3 : MaxHeap ℚ) [⟨0, 1⟩, ⟨1, 1⟩, ⟨2, 1⟩])).1).Pairwise
        (fun a b => b.score ≤ a.score)) :=
  ⟨by decide, drain_order_ignores_ids 3 [⟨0, 1⟩, ⟨1, 1⟩, ⟨2, 1⟩] swapOneTwo (by decide)⟩

/-- C5 (counterexample): three candidates of equal score inserted in ascending id order are
drained as 0, 2, 1: the tie between documents 1 and 2 comes out in descending id order. -/
theorem drain_ties_not_ascending :
    (drain (insertAll (new 3 : MaxHeap ℚ) [⟨0, 1⟩, ⟨1, 1⟩, ⟨2, 1⟩])).1 =
        [⟨0, 1⟩, ⟨2, 1⟩, ⟨1, 1⟩] ∧
      ¬ ((drain (insertAll (new 3 : MaxHeap ℚ) [⟨0, 1⟩, ⟨1, 1⟩, ⟨2, 1⟩])).1).Pairwise
        (fun a b => a.score = b.score → a.document_id < b.document_id) := by
  have h : (drain (insertAll (new 3 : MaxHeap ℚ) [⟨0, 1⟩, ⟨1, 1⟩, ⟨2, 1⟩])).1 =
      [⟨0, 1⟩, ⟨2, 1⟩, ⟨1, 1⟩] := by decide!
  refine ⟨h, ?_⟩
  rw [h]
  decide

/-- The candidates a heap holds after a sequence of insertions into a fresh heap are the
first `k` candidates offered, whatever their scores. -/
theorem held_insertAll_new (k : Nat) (cands : List (HeapNode S)) :
    (held (insertAll (new k) cands)).Perm (cands.take k) := by
  have h := (insertAll_spec cands (new k) (new_inv k)).2.2.2
  simpa [held_new, new] using h

end SearchEngine.MaxHeap

/-! ### Query engine: what `search` prints -/

namespace SearchEngine

variable {S : Type} [LinearOrderedField S]

theorem collectResults_eq_insertAll (log : S → S) (e : SearchEngine)
    (query_terms : List (List Char)) (results : MaxHeap S) :
    collectResults log e query_terms results =
      MaxHeap.insertAll results (candidates log e query_terms) := by
  unfold collectResults candidates
  generalize List.range e.total_documents = ids
  induction ids generalizing results with
  | nil => rfl
  | cons d ds ih =>
    rw [List.foldl_cons, ih]
    by_cases hpos : 0 < totalScore log e query_terms (d : Int)
    · have hgt : totalScore log e query_terms (d : Int) > 0 := hpos
      simp only [hgt, if_true, List.filterMap_cons, hpos, ite_self]
      rfl
    · have hgt : ¬ totalScore log e query_terms (d : Int) > 0 := hpos
      simp only [hgt, if_false, List.filterMap_cons, hpos]

theorem length_candidates (log : S → S) (e : SearchEngine) (query_terms : List (List Char)) :
    (candidates log e query_terms).length =
      (List.range e.total_documents).countP
        (fun (doc_id : Nat) => decide (0 < totalScore log e query_terms (doc_id : Int))) := by
  unfold candidates
  generalize List.range e.total_documents = ids
  induction ids with
  | nil => rfl
  | cons d ds ih =>
    by_cases hpos : 0 < totalScore log e query_terms (d : Int)
    · simp [List.filterMap_cons, hpos, List.countP_cons, ih]
    · simp [List.filterMap_cons, hpos, List.countP_cons, ih]

theorem displayLoop_step (e : SearchEngine) (results : MaxHeap S) (rank : Nat)
    (hne : results.isEmpty = false) (hr : rank ≤ 100) :
    displayLoop e results rank =
      { rank := rank, score := results.extractMax.1.score,
        document_id := results.extractMax.1.document_id,
        content := e.documentText results.extractMax.1.document_id } ::
        displayLoop e results.extractMax.2 (rank + 1) := by
  rw [displayLoop]
  simp [hne, hr]

theorem displayLoop_stop (e : SearchEngine) (results : MaxHeap S) (rank : Nat)
    (h : results.isEmpty = true ∨ 100 < rank) : displayLoop e results rank = [] := by
  rw [displayLoop]
  rcases h with h | h
  · simp [h]
  · have : ¬ rank ≤ 100 := by omega
    simp [this]

theorem displayLoop_nodes (e : SearchEngine) (n : Nat) :
    ∀ (results : MaxHeap S) (rank : Nat), 101 - rank = n →
      (displayLoop e results rank).map ResultEntry.node = (MaxHeap.extractAll n results).1 := by
  induction n with
  | zero =>
    intro results rank hn
    rw [displayLoop_stop e results rank (Or.inr (by omega))]
    rfl
  | succ n ih =>
    intro results rank hn
    by_cases he : results.isEmpty = true
    · rw [displayLoop_stop e results rank (Or.inl he)]
      simp [MaxHeap.extractAll, he]
    · have hne : results.isEmpty = false := by simpa using he
      rw [displayLoop_step e results rank hne (by omega)]
      simp only [List.map_cons, MaxHeap.extractAll, hne, Bool.false_eq_true, if_false]
      rw [ih results.extractMax.2 (rank + 1) (by omega)]
      rfl

theorem length_extractAll (n : Nat) :
    ∀ h : MaxHeap S, MaxHeap.Inv h → ((MaxHeap.extractAll n h).1).length = min n h.size := by
  induction n with
  | zero => intro h _; simp [MaxHeap.extractAll]
  | succ n ih =>
    intro h hinv
    by_cases he : h.isEmpty = true
    · have h0 : h.size = 0 := by simpa [MaxHeap.isEmpty] using he
      simp [MaxHeap.extractAll, he, h0]
    · have he' : h.isEmpty = false := by simpa using he
      have hpos : h.size ≠ 0 := by simpa [MaxHeap.isEmpty] using he'
      obtain ⟨_, e2, e3, _, _, _⟩ := MaxHeap.extractMax_not_empty h he' hinv
      simp only [MaxHeap.extractAll, he', Bool.false_eq_true, if_false, List.length_cons]
      rw [ih _ e2, e3]
      omega

theorem displayResults_entries (e : SearchEngine) (results : MaxHeap S) :
    (displayResults e results).entries.map ResultEntry.node =
      (MaxHeap.extractAll 100 results).1 := by
  unfold displayResults
  by_cases he : results.isEmpty = true
  · simp [he, SearchOutput.entries, MaxHeap.extractAll]
  · simp only [he, Bool.false_eq_true, if_false, SearchOutput.entries]
    exact displayLoop_nodes e 100 results 1 rfl

/-- Number of result blocks printed by `search` for a query with at least one token. -/
theorem search_entries_length (log : S → S) (e : SearchEngine) (query : List Char) (k : Nat)
    (hq : tokenizeQuery query [] ≠ []) :
    (search log e query k).entries.length =
      min 100 (min k ((List.range e.total_documents).countP
        (fun (doc_id : Nat) => decide (0 < totalScore log e (tokenizeQuery query []) (doc_id : Int))))) := by
  have hne : (tokenizeQuery query []).isEmpty = false := by
    cases h : tokenizeQuery query [] with
    | nil => exact absurd h hq
    | cons a as => rfl
  unfold search
  simp only [hne, Bool.false_eq_true, if_false]
  rw [← List.length_map (displayResults e _).entries ResultEntry.node, displayResults_entries,
    collectResults_eq_insertAll]
  obtain ⟨hinv, _, hsize, _⟩ :=
    MaxHeap.insertAll_spec (candidates log e (tokenizeQuery query [])) (MaxHeap.new k)
      (MaxHeap.new_inv k)
  rw [length_extractAll 100 _ hinv, hsize, length_candidates]
  simp [MaxHeap.new]

/-! ### Result count (C3) -/

/-- C3 (amended): for every built corpus, every query with at least one token and every
capacity `k` (so every `k > 0`), the number of result blocks `search` prints is
`min(100, min(k, number of documents whose total score is strictly positive))`: the loop of
`displayResults` stops after rank 100. -/
theorem search_result_count (log : S → S) (documents : List (List Char)) (query : List Char)
    (k : Nat) (hq : tokenizeQuery query [] ≠ []) :
    (search log (buildIndex (load documents)) query k).entries.length =
      min 100 (min k ((List.range documents.length).countP
        (fun (doc_id : Nat) => decide (0 <
          totalScore log (buildIndex (load documents)) (tokenizeQuery query []) (doc_id : Int))))) :=
  search_entries_length log (buildIndex (load documents)) query k hq

/-- Instance of the amended C3 on the corpus of Scenario A with query "cat", `k = 2`. -/
theorem search_result_count_witness :
    tokenizeQuery "cat".toList [] ≠ [] ∧ (search Real.log
        (buildIndex (load ["the cat sat".toList, "the dog sat".toList, "the cat ran".toList]))
        "cat".toList 2).entries.length =
      min 100 (min 2 ((List.range
        ["the cat sat".toList, "the dog sat".toList, "the cat ran".toList].length).countP
        (fun (doc_id : Nat) => decide (0 <
          totalScore Real.log
            (buildIndex (load ["the cat sat".toList, "the dog sat".toList, "the cat ran".toList]))
            (tokenizeQuery "cat".toList []) (doc_id : Int))))) :=
  ⟨by decide, search_result_count Real.log
    ["the cat sat".toList, "the dog sat".toList, "the cat ran".toList] "cat".toList 2
    (by decide)⟩

theorem totalScore_singleton (log : S → S) (e : SearchEngine) (term : List Char) (d : Int) :
    totalScore log e [term] d = calculateTF e term d * calculateIDF log e term := by
  simp [totalScore, calculateTFIDF]

theorem manyMatches_counts :
    ∀ d ∈ List.range 102,
      countWordInDocument (buildIndex (load manyMatches)) "a".toList (d : Int) =
        (if d < 101 then 1 else 0) ∧
      (tokenizeQuery ((buildIndex (load manyMatches)).documentText (d : Int)) []).length = 1 := by
  decide!

theorem manyMatches_df :
    countDocumentsContaining (buildIndex (load manyMatches)) "a".toList = 101 := by
  decide!

theorem manyMatches_score (d : Nat) (hd : d ∈ List.range 102) :
    (0 < totalScore Real.log (buildIndex (load manyMatches)) ["a".toList] (d : Int)) ↔
      d < 101 := by
  obtain ⟨hc, hl⟩ := manyMatches_counts d hd
  have htot : (buildIndex (load manyMatches)).total_documents = 102 := rfl
  rw [totalScore_singleton]
  unfold calculateTF calculateIDF
  simp only [hc, hl, manyMatches_df, htot]
  have hlog : 0 < Real.log (102 / 101) := Real.log_pos (by norm_num)
  by_cases hlt : d < 101
  · simp only [hlt, if_true, iff_true]
    norm_num
    exact hlog
  · simp [hlt]

/-- C3 (counterexample): on a corpus where 101 documents score above zero, with `k = 101`,
`search` prints 100 result blocks although `min(k, number of positive documents) = 101`. -/
theorem display_stops_at_rank_100 :
    (search Real.log (buildIndex (load manyMatches)) "a".toList 101).entries.length = 100 ∧
      min 101 ((List.range manyMatches.length).countP
        (fun (doc_id : Nat) => decide (0 <
          totalScore Real.log (buildIndex (load manyMatches)) (tokenizeQuery "a".toList [])
            (doc_id : Int)))) = 101 := by
  have htok : tokenizeQuery "a".toList [] = ["a".toList] := by decide
  have hlen : manyMatches.length = 102 := by decide
  have hcount : (List.range 102).countP
      (fun (doc_id : Nat) => decide (0 <
        totalScore Real.log (buildIndex (load manyMatches)) ["a".toList] (doc_id : Int))) = 101 := by
    rw [List.countP_congr (q := fun d => decide (d < 101))]
    · decide!
    · intro d hd
      simpa using manyMatches_score d hd
  refine ⟨?_, ?_⟩
  · rw [search_entries_length Real.log _ _ _ (by rw [htok]; simp)]
    have htot : (buildIndex (load manyMatches)).total_documents = 102 := rfl
    rw [htot, htok, hcount]
    rfl
  · rw [hlen, htok, hcount]
    rfl

/-! ### A full heap drops better candidates (C2) -/

/-- For a capacity of at most 100, the (document id, score) pairs `search` prints are a
rearrangement of the first `k` candidates in document-id order. -/
theorem search_nodes_perm (log : S → S) (e : SearchEngine) (query : List Char) (k : Nat)
    (hk : k ≤ 100) (hq : tokenizeQuery query [] ≠ []) :
    ((search log e query k).entries.map ResultEntry.node).Perm
      ((candidates log e (tokenizeQuery query [])).take k) := by
  have hne : (tokenizeQuery query []).isEmpty = false := by
    cases h : tokenizeQuery query [] with
    | nil => exact absurd h hq
    | cons a as => rfl
  unfold search
  simp only [hne, Bool.false_eq_true, if_false]
  rw [displayResults_entries, collectResults_eq_insertAll]
  obtain ⟨hinv, _, hsize, _⟩ :=
    MaxHeap.insertAll_spec (candidates log e (tokenizeQuery query [])) (MaxHeap.new k)
      (MaxHeap.new_inv k)
  have hsz : (MaxHeap.insertAll (MaxHeap.new k) (candidates log e (tokenizeQuery query []))).size
      ≤ 100 := by
    rw [hsize]
    simp only [MaxHeap.new]
    omega
  exact (MaxHeap.extractAll_spec 100 _ hinv hsz).2.1.trans (MaxHeap.held_insertAll_new k _)

theorem lateBest_scores :
    totalScore Real.log (buildIndex (load lateBest)) ["a".toList] 0 = 1 / 2 * Real.log (3 / 2) ∧
    totalScore Real.log (buildIndex (load lateBest)) ["a".toList] 1 = Real.log (3 / 2) ∧
    totalScore Real.log (buildIndex (load lateBest)) ["a".toList] 2 = 0 := by
  have hc0 : countWordInDocument (buildIndex (load lateBest)) "a".toList 0 = 1 := by decide
  have hc1 : countWordInDocument (buildIndex (load lateBest)) "a".toList 1 = 1 := by decide
  have hc2 : countWordInDocument (buildIndex (load lateBest)) "a".toList 2 = 0 := by decide
  have hl0 : (tokenizeQuery ((buildIndex (load lateBest)).documentText 0) []).length = 2 := by
    decide
  have hl1 : (tokenizeQuery ((buildIndex (load lateBest)).documentText 1) []).length = 1 := by
    decide
  have hdf : countDocumentsContaining (buildIndex (load lateBest)) "a".toList = 2 := by decide
  have htot : (buildIndex (load lateBest)).total_documents = 3 := rfl
  refine ⟨?_, ?_, ?_⟩
  · rw [totalScore_singleton]
    unfold calculateTF calculateIDF
    simp only [hc0, hl0, hdf, htot]
    norm_num
  · rw [totalScore_singleton]
    unfold calculateTF calculateIDF
    simp only [hc1, hl1, hdf, htot]
    norm_num
  · rw [totalScore_singleton]
    unfold calculateTF
    simp only [hc2]
    norm_num

/-- C2 (the code at the failing input): on the corpus ["a b", "a", "c"] with query "a" and
`k = 1`, `search` prints document 0 only, with score (1/2)·ln(3/2), although document 1 was
offered later with the strictly higher score ln(3/2). -/
theorem search_keeps_first_not_best :
    (search Real.log (buildIndex (load lateBest)) "a".toList 1).entries.map ResultEntry.node =
        [⟨0, 1 / 2 * Real.log (3 / 2)⟩] ∧
      totalScore Real.log (buildIndex (load lateBest)) (tokenizeQuery "a".toList []) 0 <
        totalScore Real.log (buildIndex (load lateBest)) (tokenizeQuery "a".toList []) 1 := by
  have htok : tokenizeQuery "a".toList [] = ["a".toList] := by decide
  obtain ⟨h0, h1, h2⟩ := lateBest_scores
  have hlog : 0 < Real.log (3 / 2) := Real.log_pos (by norm_num)
  have hcands : candidates Real.log (buildIndex (load lateBest)) ["a".toList] =
      [⟨0, 1 / 2 * Real.log (3 / 2)⟩, ⟨1, Real.log (3 / 2)⟩] := by
    have htot : (buildIndex (load lateBest)).total_documents = 3 := rfl
    have hr : List.range 3 = [0, 1, 2] := by decide
    unfold candidates
    rw [htot, hr]
    simp only [List.filterMap_cons, List.filterMap_nil, Nat.cast_zero, Nat.cast_one,
      Nat.cast_ofNat, h0, h1, h2, lt_self_iff_false, if_false]
    have hp0 : 0 < 1 / 2 * Real.log (3 / 2) := by positivity
    simp only [hp0, hlog, if_true]
  refine ⟨?_, ?_⟩
  · have hperm := search_nodes_perm Real.log (buildIndex (load lateBest)) "a".toList 1
      (by norm_num) (by rw [htok]; simp)
    rw [htok, hcands] at hperm
    simpa using hperm
  · rw [htok, h0, h1]
    linarith

/-! ### Scores are sums over the query tokens with multiplicity (C7) -/

theorem foldl_add_eq_sum {α : Type} (g : α → S) (l : List α) (a : S) :
    l.foldl (fun acc x => acc + g x) a = a + (l.map g).sum := by
  induction l generalizing a with
  | nil => simp
  | cons x xs ih => simp [ih, add_assoc]

theorem totalScore_eq_sum (log : S → S) (e : SearchEngine) (query_terms : List (List Char))
    (d : Int) :
    totalScore log e query_terms d =
      (query_terms.map (fun term => calculateTFIDF log e term d)).sum := by
  unfold totalScore
  rw [foldl_add_eq_sum (fun term => calculateTFIDF log e term d)]
  simp

theorem tokenizeLoop_append (a b cur : List Char) (toks : List (List Char)) :
    tokenizeLoop (a ++ b) cur toks =
      tokenizeLoop b (tokenizeLoop a cur toks).1 (tokenizeLoop a cur toks).2 := by
  induction a generalizing cur toks with
  | nil => rfl
  | cons ch rest ih =>
    simp only [List.cons_append, tokenizeLoop]
    split_ifs <;> exact ih _ _

theorem tokenizeLoop_separator (sep : Char) (hsep : isAlphaNum sep = false) (b cur : List Char)
    (toks : List (List Char)) :
    tokenizeLoop (sep :: b) cur toks = tokenizeLoop b [] (flushToken (cur, toks)) := by
  cases cur with
  | nil => simp [tokenizeLoop, hsep, flushToken]
  | cons c cs => simp [tokenizeLoop, hsep, flushToken]

theorem tokenizeQuery_tokens (s : List Char) (toks : List (List Char)) :
    tokenizeQuery s toks = toks ++ tokenizeQuery s [] := by
  rw [tokenizeQuery_eq_flush, tokenizeQuery_eq_flush, flush_tokenizeLoop, flush_tokenizeLoop]
  simp

theorem tokenizeQuery_separated (a b : List Char) (sep : Char) (hsep : isAlphaNum sep = false) :
    tokenizeQuery (a ++ sep :: b) [] = tokenizeQuery a [] ++ tokenizeQuery b [] := by
  rw [tokenizeQuery_eq_flush, tokenizeLoop_append, tokenizeLoop_separator sep hsep,
    ← tokenizeQuery_eq_flush, show flushToken ((tokenizeLoop a [] []).1, (tokenizeLoop a [] []).2)
      = tokenizeQuery a [] from rfl, tokenizeQuery_tokens]

/-- C7: for every built corpus, document id `d` and query, the score `search` computes for `d`
is the sum of `calculateTFIDF(term, d)` over the token list of the query, with multiplicity
and without deduplication; so for every `t` the score for the query "t t" is exactly twice
the score for the query "t". -/
theorem totalScore_sum_with_multiplicity (log : S → S) (documents : List (List Char)) (d : Int)
    (query t : List Char) :
    totalScore log (buildIndex (load documents)) (tokenizeQuery query []) d =
        ((tokenizeQuery query []).map
          (fun term => calculateTFIDF log (buildIndex (load documents)) term d)).sum ∧
      totalScore log (buildIndex (load documents)) (tokenizeQuery (t ++ ' ' :: t) []) d =
        2 * totalScore log (buildIndex (load documents)) (tokenizeQuery t []) d := by
  refine ⟨totalScore_eq_sum _ _ _ _, ?_⟩
  rw [tokenizeQuery_separated t t ' ' (by decide), totalScore_eq_sum, totalScore_eq_sum,
    List.map_append, List.sum_append]
  ring

/-! ### Term frequency (C8, C10) -/

theorem countWordInDocument_built (documents : List (List Char)) (t : List Char) (d : Nat)
    (hd : d < documents.length) :
    countWordInDocument (buildIndex (load documents)) t (d : Int) =
      (((tokenizeQuery (documents.getD d []) []).countP
        (fun tok => decide (toLowerCase tok = toLowerCase t)) : Nat) : Int) := by
  rw [countWordInDocument_eq_countAt, countAt_buildIndex]
  simp [hd]

theorem documentText_built (documents : List (List Char)) (d : Nat) :
    (buildIndex (load documents)).documentText (d : Int) = documents.getD d [] := by
  simp [documentText, buildIndex, load]

/-- C8: for every corpus indexed by `buildIndex`, every term `t` and every document id `d` in
`[0, N)`, `calculateTF(t, d)`, taken as the exact quotient occurrences / word count, lies in
the closed interval `[0, 1]`. -/
theorem calculateTF_bounds (documents : List (List Char)) (t : List Char) (d : Nat)
    (hd : d < documents.length) :
    (0 : S) ≤ calculateTF (buildIndex (load documents)) t (d : Int) ∧
      calculateTF (buildIndex (load documents)) t (d : Int) ≤ (1 : S) := by
  unfold calculateTF
  simp only [countWordInDocument_built documents t d hd, documentText_built]
  split_ifs with hz
  · exact ⟨le_refl _, zero_le_one⟩
  · have hle := List.countP_le_length (fun tok => decide (toLowerCase tok = toLowerCase t))
      (l := tokenizeQuery (documents.getD d []) [])
    have hpos : 0 < (tokenizeQuery (documents.getD d []) []).countP
        (fun tok => decide (toLowerCase tok = toLowerCase t)) := by
      rcases Nat.eq_zero_or_pos ((tokenizeQuery (documents.getD d []) []).countP
        (fun tok => decide (toLowerCase tok = toLowerCase t))) with h0 | h0
      · rw [h0] at hz; exact absurd rfl hz
      · exact h0
    have hlen : (0 : S) < ((tokenizeQuery (documents.getD d []) []).length : S) := by
      exact_mod_cast lt_of_lt_of_le hpos hle
    rw [Int.cast_natCast]
    refine ⟨div_nonneg (Nat.cast_nonneg _) (le_of_lt hlen), ?_⟩
    rw [div_le_one hlen]
    exact_mod_cast hle

/-- Instance of C8 over the rationals: corpus of Scenario A, term "cat", document 0. -/
theorem calculateTF_bounds_witness :
    (0 < ["the cat sat".toList, "the dog sat".toList, "the cat ran".toList].length) ∧
    ((0 : ℚ) ≤ calculateTF
        (buildIndex (load ["the cat sat".toList, "the dog sat".toList, "the cat ran".toList]))
        "cat".toList ((0 : Nat) : Int) ∧
      calculateTF
        (buildIndex (load ["the cat sat".toList, "the dog sat".toList, "the cat ran".toList]))
        "cat".toList ((0 : Nat) : Int) ≤ (1 : ℚ)) :=
  ⟨by decide, calculateTF_bounds
    ["the cat sat".toList, "the dog sat".toList, "the cat ran".toList] "cat".toList 0 (by decide)⟩

/-- C10: for every corpus indexed by `buildIndex`, every term `t` and every document id `d` in
`[0, N)`: `calculateTF(t, d)` is 0 when document `d` has zero tokens, and is 0 when no token of
`d` case-folds to the case-folded `t`; and whenever `countWordInDocument(t, d)` is not 0 (the
only case in which `calculateTF` divides) the divisor, the token count of `d`, is positive. -/
theorem calculateTF_zero_and_safe (documents : List (List Char)) (t : List Char) (d : Nat)
    (hd : d < documents.length) :
    ((tokenizeQuery (documents.getD d []) []).length = 0 →
        calculateTF (S := S) (buildIndex (load documents)) t (d : Int) = 0) ∧
      ((∀ tok ∈ tokenizeQuery (documents.getD d []) [], toLowerCase tok ≠ toLowerCase t) →
        calculateTF (S := S) (buildIndex (load documents)) t (d : Int) = 0) ∧
      (countWordInDocument (buildIndex (load documents)) t (d : Int) ≠ 0 →
        0 < countWordInDocument (buildIndex (load documents)) t (d : Int) ∧
        0 < (tokenizeQuery ((buildIndex (load documents)).documentText (d : Int)) []).length) := by
  have hcount := countWordInDocument_built documents t d hd
  have hle := List.countP_le_length (fun tok => decide (toLowerCase tok = toLowerCase t))
    (l := tokenizeQuery (documents.getD d []) [])
  refine ⟨?_, ?_, ?_⟩
  · intro hlen
    have h0 : countWordInDocument (buildIndex (load documents)) t (d : Int) = 0 := by
      rw [hcount]
      have : (tokenizeQuery (documents.getD d []) []).countP
          (fun tok => decide (toLowerCase tok = toLowerCase t)) = 0 := by omega
      rw [this]; rfl
    simp [calculateTF, h0]
  · intro hno
    have h0 : countWordInDocument (buildIndex (load documents)) t (d : Int) = 0 := by
      rw [hcount]
      have : (tokenizeQuery (documents.getD d []) []).countP
          (fun tok => decide (toLowerCase tok = toLowerCase t)) = 0 := by
        rw [List.countP_eq_zero]
        intro tok htok
        simpa using hno tok htok
      rw [this]; rfl
    simp [calculateTF, h0]
  · intro hne
    rw [documentText_built]
    rw [hcount] at hne ⊢
    have hpos : 0 < (tokenizeQuery (documents.getD d []) []).countP
        (fun tok => decide (toLowerCase tok = toLowerCase t)) := by
      rcases Nat.eq_zero_or_pos ((tokenizeQuery (documents.getD d []) []).countP
        (fun tok => decide (toLowerCase tok = toLowerCase t))) with h0 | h0
      · rw [h0] at hne; exact absurd rfl hne
      · exact h0
    exact ⟨by exact_mod_cast hpos, lt_of_lt_of_le hpos hle⟩

/-! ### Posting lists of a built index: one entry per document containing the word (C9) -/

theorem frequencyOf_nonneg (docs : ListNode) (hpos : allPositive docs) (d : Int) :
    0 ≤ frequencyOf docs d := by
  induction docs with
  | null => simp [frequencyOf]
  | node document_id frequency next ih =>
    simp only [frequencyOf]
    split_ifs
    · have := hpos.1; omega
    · exact ih hpos.2

theorem findDocument_null_iff (docs : ListNode) (hpos : allPositive docs) (d : Int) :
    findDocument docs d = .null ↔ frequencyOf docs d = 0 := by
  induction docs with
  | null => simp [findDocument, frequencyOf]
  | node document_id frequency next ih =>
    by_cases hne : document_id = d
    · have := hpos.1
      simp only [findDocument, frequencyOf, hne, ne_eq, not_true_eq_false, if_false, if_true]
      constructor
      · intro h; exact ListNode.noConfusion h
      · intro h; omega
    · simp only [findDocument, frequencyOf, hne, ne_eq, not_false_eq_true, if_true, if_false]
      exact ih hpos.2

theorem postingLength_incrementFrequency (docs : ListNode) (d : Int) :
    postingLength (incrementFrequency docs d) = postingLength docs := by
  induction docs with
  | null => rfl
  | node document_id frequency next ih =>
    simp only [incrementFrequency]
    split_ifs <;> simp [postingLength, ih]

theorem allPositive_incrementFrequency (docs : ListNode) (hpos : allPositive docs) (d : Int) :
    allPositive (incrementFrequency docs d) := by
  induction docs with
  | null => trivial
  | node document_id frequency next ih =>
    simp only [incrementFrequency]
    split_ifs
    · exact ⟨hpos.1, ih hpos.2⟩
    · exact ⟨by have := hpos.1; omega, hpos.2⟩

theorem allPositive_addDocument (docs : ListNode) (hpos : allPositive docs) (d : Int) :
    allPositive (addDocument docs d) := by
  unfold addDocument
  cases findDocument docs d with
  | null => exact ⟨le_refl _, hpos⟩
  | node a b c => exact allPositive_incrementFrequency docs hpos d

theorem postingLength_addDocument (docs : ListNode) (hpos : allPositive docs) (d : Int) :
    postingLength (addDocument docs d) =
      postingLength docs + (if frequencyOf docs d = 0 then 1 else 0) := by
  have hiff := findDocument_null_iff docs hpos d
  unfold addDocument
  cases hfind : findDocument docs d with
  | null =>
    rw [hfind] at hiff
    simp [postingLength, hiff.mp rfl]
  | node a b c =>
    rw [hfind] at hiff
    have hne : ¬ frequencyOf docs d = 0 := fun h => ListNode.noConfusion (hiff.mpr h)
    simp [postingLength_incrementFrequency, hne]

theorem postingSound_succ (postings : ListNode) (m : Nat) (h : PostingSound postings m) :
    PostingSound postings (m + 1) := by
  obtain ⟨h1, h2, h3⟩ := h
  refine ⟨h1, ?_, ?_⟩
  · intro d hd
    apply h2
    rcases hd with hd | hd
    · exact Or.inl hd
    · right; push_cast at hd; omega
  · rw [List.range_succ, List.countP_append, ← h3]
    have hz := h2 (m : Int) (Or.inr (le_refl _))
    simp [hz]

theorem postingSound_addDocument (postings : ListNode) (k : Nat)
    (h : PostingSound postings (k + 1)) : PostingSound (addDocument postings (k : Int)) (k + 1) := by
  obtain ⟨h1, h2, h3⟩ := h
  have hnn := frequencyOf_nonneg postings h1 (k : Int)
  refine ⟨allPositive_addDocument postings h1 _, ?_, ?_⟩
  · intro d hd
    rw [frequencyOf_addDocument, h2 d hd]
    have hdk : ¬ d = (k : Int) := by
      rcases hd with hd | hd
      · omega
      · push_cast at hd; omega
    simp [hdk]
  · rw [postingLength_addDocument postings h1, h3, List.range_succ, List.countP_append,
      List.countP_append]
    have hcongr : (List.range k).countP
        (fun (d : Nat) => decide (0 < frequencyOf (addDocument postings (k : Int)) (d : Int))) =
        (List.range k).countP (fun (d : Nat) => decide (0 < frequencyOf postings (d : Int))) := by
      apply List.countP_congr
      intro d hd
      have hdk : ¬ ((d : Int) = (k : Int)) := by
        have := List.mem_range.mp hd
        omega
      simp [frequencyOf_addDocument, hdk]
    rw [hcongr]
    have hlast : [k].countP
        (fun (d : Nat) => decide (0 < frequencyOf (addDocument postings (k : Int)) (d : Int))) = 1 := by
      have : 0 < frequencyOf postings (k : Int) + 1 := by omega
      simp [frequencyOf_addDocument, this]
    rw [hlast]
    by_cases hz : frequencyOf postings (k : Int) = 0
    · simp [hz]
    · have hp : 0 < frequencyOf postings (k : Int) := by omega
      simp [hz, hp]

theorem postingsAt_insertWord (r : TrieNode) (hr : r ≠ .null) (word : List Char) (d : Int)
    (word' : List Char) :
    postingsAt (insertWord r word d) word' =
      if word' = word then addDocument (postingsAt r word) d else postingsAt r word' := by
  cases r with
  | null => exact absurd rfl hr
  | node c child sibling docs => exact postingsAt_insertFrom word d c child sibling docs word'

theorem postingSound_indexWords (words : List (List Char)) (k : Nat) (word' : List Char) :
    ∀ r : TrieNode, r ≠ .null → PostingSound (postingsAt r word') (k + 1) →
      PostingSound (postingsAt (indexWords r (k : Int) words) word') (k + 1) := by
  induction words with
  | nil => intro r _ h; exact h
  | cons w ws ih =>
    intro r hr h
    have hfold : SearchEngine.indexWords r (k : Int) (w :: ws) =
        SearchEngine.indexWords
          (if !w.isEmpty then insertWord r (toLowerCase w) (k : Int) else r) (k : Int) ws := rfl
    rw [hfold]
    by_cases hw : w.isEmpty = true
    · simp only [hw, Bool.not_true, Bool.false_eq_true, if_false]
      exact ih r hr h
    · have hw' : w.isEmpty = false := by simpa using hw
      simp only [hw', Bool.not_false, if_true]
      apply ih _ (insertWord_ne_null r hr _ _)
      rw [postingsAt_insertWord r hr]
      by_cases hword : word' = toLowerCase w
      · subst hword
        simp only [if_true]
        exact postingSound_addDocument _ k h
      · simp only [hword, if_false]
        exact h

theorem postingSound_indexedUpTo (e : SearchEngine) (hr : e.root ≠ .null) (word' : List Char)
    (h0 : postingsAt e.root word' = .null) (n : Nat) :
    PostingSound (postingsAt (indexedUpTo e n) word') n := by
  induction n with
  | zero =>
    have : SearchEngine.indexedUpTo e 0 = e.root := rfl
    rw [this, h0]
    exact ⟨trivial, fun _ _ => rfl, rfl⟩
  | succ n ih =>
    rw [indexedUpTo_succ]
    exact postingSound_indexWords _ n word' _ (indexedUpTo_ne_null e hr n) (postingSound_succ _ _ ih)

theorem postingsAt_load_root (documents : List (List Char)) (word : List Char) :
    postingsAt (load documents).root word = .null := by
  show postingsAt (.node (Char.ofNat 0) .null .null .null) word = .null
  cases word with
  | nil => rw [postingsAt_nil]
  | cons x xs => rw [postingsAt_cons]; exact postingsAt_null xs

theorem countDocumentsContaining_eq_lengthAt (e : SearchEngine) (word : List Char) :
    countDocumentsContaining e word = lengthAt e.root (toLowerCase word) := rfl

theorem countP_range_getD {α : Type} (p : α → Bool) (dflt : α) (l : List α) :
    (List.range l.length).countP (fun i => p (l.getD i dflt)) = l.countP p := by
  induction l using List.reverseRecOn with
  | nil => rfl
  | append_singleton l a ih =>
    rw [List.length_append, List.length_singleton, List.range_succ, List.countP_append,
      List.countP_append, ← ih]
    congr 1
    · apply List.countP_congr
      intro i hi
      have hlt : i < l.length := List.mem_range.mp hi
      rw [List.getD_append _ _ _ _ hlt]
    · rw [List.countP_cons, List.countP_cons, List.countP_nil, List.countP_nil,
        List.getD_eq_getElem?_getD, List.getElem?_concat_length]
      rfl

/-- Number of postings of a word in a freshly built index: the number of documents with a
token that case-folds to the case-folded word. -/
theorem countDocumentsContaining_built (documents : List (List Char)) (t : List Char) :
    countDocumentsContaining (buildIndex (load documents)) t =
      documents.countP (fun text => occursIn t text) := by
  have hsound := postingSound_indexedUpTo (load documents) (by simp [load]) (toLowerCase t)
    (postingsAt_load_root documents _) documents.length
  rw [countDocumentsContaining_eq_lengthAt, lengthAt_eq_postingsAt, buildIndex_root]
  have hN : (load documents).total_documents = documents.length := rfl
  rw [hN, hsound.2.2, ← countP_range_getD (fun text => occursIn t text) [] documents]
  apply List.countP_congr
  intro d hd
  have hlt : d < documents.length := List.mem_range.mp hd
  have hcount := countWordInDocument_built documents t d hlt
  rw [countWordInDocument_eq_countAt, countAt_eq_postingsAt, buildIndex_root, hN] at hcount
  rw [hcount]
  simp only [Nat.cast_pos, decide_eq_true_eq, occursIn, List.any_eq_true]
  rw [List.countP_pos_iff]
  simp

/-- C9: for every corpus indexed by `buildIndex` and every term `t`, the posting count
`countDocumentsContaining(t)` is the number of documents in which `t` (case-folded) occurs.
If `t` occurs in at least one document, that number is between 1 and `N`,
`calculateIDF(t) = ln(N / documentsContaining(t))` and it is `≥ 0`. If `t` occurs in no
document, `calculateIDF(t) = 0` whatever the logarithm function is: the zero is returned
without evaluating the logarithm or the division. -/
theorem calculateIDF_spec (documents : List (List Char)) (t : List Char) :
    countDocumentsContaining (buildIndex (load documents)) t =
        documents.countP (fun text => occursIn t text) ∧
      ((∃ text ∈ documents, occursIn t text = true) →
        1 ≤ documents.countP (fun text => occursIn t text) ∧
        documents.countP (fun text => occursIn t text) ≤ documents.length ∧
        calculateIDF Real.log (buildIndex (load documents)) t =
          Real.log ((documents.length : ℝ) / (documents.countP (fun text => occursIn t text) : ℝ)) ∧
        0 ≤ calculateIDF Real.log (buildIndex (load documents)) t) ∧
      ((∀ text ∈ documents, occursIn t text = false) →
        ∀ log : ℝ → ℝ, calculateIDF log (buildIndex (load documents)) t = 0) := by
  have hdf := countDocumentsContaining_built documents t
  have hN : (buildIndex (load documents)).total_documents = documents.length := rfl
  refine ⟨hdf, ?_, ?_⟩
  · rintro ⟨text, hmem, hocc⟩
    have hpos : 0 < documents.countP (fun text => occursIn t text) :=
      List.countP_pos_iff.mpr ⟨text, hmem, hocc⟩
    have hle : documents.countP (fun text => occursIn t text) ≤ documents.length :=
      List.countP_le_length _
    have hne : ¬ documents.countP (fun text => occursIn t text) = 0 := by omega
    have hidf : calculateIDF Real.log (buildIndex (load documents)) t =
        Real.log ((documents.length : ℝ) /
          (documents.countP (fun text => occursIn t text) : ℝ)) := by
      unfold calculateIDF
      simp only [hdf, hN, hne, if_false]
    refine ⟨hpos, hle, hidf, ?_⟩
    rw [hidf]
    apply Real.log_nonneg
    have hposR : (0 : ℝ) < (documents.countP (fun text => occursIn t text) : ℝ) := by
      exact_mod_cast hpos
    rw [one_le_div hposR]
    exact_mod_cast hle
  · intro hnone log
    have hzero : documents.countP (fun text => occursIn t text) = 0 := by
      rw [List.countP_eq_zero]
      intro text hmem
      simp [hnone text hmem]
    unfold calculateIDF
    simp only [hdf, hzero, if_true]

/-- Instance of C9 on the corpus of Scenario A: "cat" occurs in a document, "zzz" in none. -/
theorem calculateIDF_spec_witness :
    (0 ≤ calculateIDF Real.log
        (buildIndex (load ["the cat sat".toList, "the dog sat".toList, "the cat ran".toList]))
        "cat".toList) ∧
      calculateIDF Real.log
        (buildIndex (load ["the cat sat".toList, "the dog sat".toList, "the cat ran".toList]))
        "zzz".toList = 0 :=
  ⟨((calculateIDF_spec ["the cat sat".toList, "the dog sat".toList, "the cat ran".toList]
      "cat".toList).2.1 ⟨"the cat sat".toList, by decide, by decide⟩).2.2.2,
    (calculateIDF_spec ["the cat sat".toList, "the dog sat".toList, "the cat ran".toList]
      "zzz".toList).2.2 (by decide) Real.log⟩

/-- Instance of C10 over the rationals: corpus of Scenario A, term "dog", document 1. -/
theorem calculateTF_zero_and_safe_witness :
    (1 < ["the cat sat".toList, "the dog sat".toList, "the cat ran".toList].length) ∧
    (countWordInDocument
        (buildIndex (load ["the cat sat".toList, "the dog sat".toList, "the cat ran".toList]))
        "dog".toList ((1 : Nat) : Int) ≠ 0 →
      0 < countWordInDocument
        (buildIndex (load ["the cat sat".toList, "the dog sat".toList, "the cat ran".toList]))
        "dog".toList ((1 : Nat) : Int) ∧
      0 < (tokenizeQuery ((buildIndex
        (load ["the cat sat".toList, "the dog sat".toList, "the cat ran".toList])).documentText
          ((1 : Nat) : Int)) []).length) :=
  ⟨by decide, (calculateTF_zero_and_safe (S := ℚ)
    ["the cat sat".toList, "the dog sat".toList, "the cat ran".toList] "dog".toList 1
    (by decide)).2.2⟩

/-! ### Lookup after insertions (C11) -/

theorem reaches_iff (current : TrieNode) (word : List Char) :
    reaches current word = true ↔ searchWord current word ≠ .null := by
  unfold reaches
  cases searchWord current word <;> simp

theorem reaches_null (word : List Char) : reaches .null word = false := by
  cases word <;> simp [reaches, searchWord]

theorem reaches_nil (c : Char) (child sibling : TrieNode) (docs : ListNode) :
    reaches (.node c child sibling docs) [] = true := by
  simp [reaches, searchWord]

theorem reaches_cons (c : Char) (child sibling : TrieNode) (docs : ListNode) (x : Char)
    (xs : List Char) :
    reaches (.node c child sibling docs) (x :: xs) = reaches (findChild child x) xs := by
  unfold reaches
  rw [searchWord]
  cases h : findChild child x with
  | null => cases xs <;> simp [searchWord]
  | node c' child' sibling' docs' => simp

theorem reaches_sibling_irrelevant (c c' : Char) (child sibling sibling' : TrieNode)
    (docs docs' : ListNode) (word : List Char) :
    reaches (.node c child sibling docs) word = reaches (.node c' child sibling' docs') word := by
  cases word with
  | nil => simp [reaches_nil]
  | cons x xs => simp [reaches_cons]

theorem reaches_findChild_updateChild_ne (f : TrieNode → TrieNode)
    (hf : ∀ c child sibling docs, ∃ child' docs',
      f (.node c child sibling docs) = .node c child' sibling docs')
    (chain : TrieNode) (a x : Char) (hx : x ≠ a) (word : List Char) :
    reaches (findChild (updateChild f chain a) x) word = reaches (findChild chain x) word := by
  induction chain with
  | null => rfl
  | node c child sibling docs _ ihs =>
    by_cases hc : c = a
    · subst hc
      obtain ⟨child', docs', hfe⟩ := hf c child sibling docs
      have hcx : c ≠ x := fun h => hx h.symm
      simp [updateChild, hfe, findChild, hcx]
    · by_cases hcx : c = x
      · subst hcx
        simp only [updateChild, ne_eq, hc, not_false_eq_true, if_true, findChild, not_true_eq_false,
          if_false]
        exact reaches_sibling_irrelevant _ _ _ _ _ _ _ _
      · simp [updateChild, hc, findChild, hcx, ihs]

/-- Effect of one `insertWord` on which words `searchWord` finds a node for: the words found
before, and the prefixes of the inserted word. -/
theorem reaches_insertFrom (word : List Char) (d : Int) :
    ∀ (c : Char) (child sibling : TrieNode) (docs : ListNode) (word' : List Char),
      reaches (insertFrom word d (.node c child sibling docs)) word' =
        (reaches (.node c child sibling docs) word' || decide (word' <+: word)) := by
  induction word with
  | nil =>
    intro c child sibling docs word'
    cases word' with
    | nil => simp [insertFrom, reaches_nil]
    | cons x xs => simp [insertFrom, reaches_cons]
  | cons a rest ih =>
    intro c child sibling docs word'
    rw [insertFrom]
    cases hfind : findChild child a with
    | null =>
      simp only
      cases word' with
      | nil => simp [reaches_nil]
      | cons x xs =>
        rw [reaches_cons, reaches_cons]
        obtain ⟨child', docs', hnew⟩ := insertFrom_node rest d a .null child .null
        by_cases hx : x = a
        · subst hx
          have hstep : findChild (insertFrom rest d (.node x .null child .null)) x =
              insertFrom rest d (.node x .null child .null) := by
            rw [hnew]; simp [findChild]
          rw [hstep, ih, hfind, reaches_null]
          cases xs with
          | nil => simp [reaches_nil]
          | cons y ys => simp [reaches_cons, findChild, reaches_null, List.cons_prefix_cons]
        · have hstep : findChild (insertFrom rest d (.node a .null child .null)) x =
              findChild child x := by
            rw [hnew]
            have hax : a ≠ x := fun h => hx h.symm
            simp [findChild, hax]
          rw [hstep]
          simp [List.cons_prefix_cons, hx]
    | node fc fchild fsibling fdocs =>
      simp only
      cases word' with
      | nil => simp [reaches_nil]
      | cons x xs =>
        rw [reaches_cons, reaches_cons]
        by_cases hx : x = a
        · subst hx
          rw [findChild_updateChild_eq (insertFrom rest d) (insertFrom_node rest d) child x
            (by rw [hfind]; exact fun h => TrieNode.noConfusion h), hfind, ih]
          simp [List.cons_prefix_cons]
        · rw [reaches_findChild_updateChild_ne (insertFrom rest d) (insertFrom_node rest d)
            child a x hx]
          simp [List.cons_prefix_cons, hx]

theorem insertWords_cons (r : TrieNode) (p : List Char × Int) (ps : List (List Char × Int)) :
    insertWords r (p :: ps) = insertWords (insertWord r p.1 p.2) ps := rfl

theorem insertWords_append (r : TrieNode) (ps qs : List (List Char × Int)) :
    insertWords r (ps ++ qs) = insertWords (insertWords r ps) qs := by
  simp [insertWords, List.foldl_append]

theorem insertWords_ne_null (ins : List (List Char × Int)) :
    ∀ r : TrieNode, r ≠ .null → insertWords r ins ≠ .null := by
  induction ins with
  | nil => intro r hr; exact hr
  | cons p ps ih =>
    intro r hr
    rw [insertWords_cons]
    exact ih _ (insertWord_ne_null r hr _ _)

theorem emptyRoot_ne_null : emptyRoot ≠ .null :=
  fun h => TrieNode.noConfusion h

theorem reaches_insertWord (r : TrieNode) (hr : r ≠ .null) (word : List Char) (d : Int)
    (word' : List Char) :
    reaches (insertWord r word d) word' = (reaches r word' || decide (word' <+: word)) := by
  cases r with
  | null => exact absurd rfl hr
  | node c child sibling docs => exact reaches_insertFrom word d c child sibling docs word'

theorem reaches_insertWords (ins : List (List Char × Int)) (word' : List Char) :
    ∀ r : TrieNode, r ≠ .null →
      reaches (insertWords r ins) word' =
        (reaches r word' || ins.any (fun p => decide (word' <+: p.1))) := by
  induction ins with
  | nil => intro r _; simp [insertWords]
  | cons p ps ih =>
    intro r hr
    rw [insertWords_cons, ih _ (insertWord_ne_null r hr _ _), reaches_insertWord r hr]
    simp [Bool.or_assoc]

theorem addDocument_ne_null (docs : ListNode) (d : Int) : addDocument docs d ≠ .null := by
  unfold addDocument
  cases hfind : findDocument docs d with
  | null => exact fun h => ListNode.noConfusion h
  | node a b c =>
    cases docs with
    | null => simp [findDocument] at hfind
    | node a' b' c' =>
      simp only [incrementFrequency]
      split_ifs <;> exact fun h => ListNode.noConfusion h

theorem postingsAt_insertWords_ne_null (ins : List (List Char × Int)) (word' : List Char) :
    ∀ r : TrieNode, r ≠ .null →
      (postingsAt (insertWords r ins) word' ≠ .null ↔
        postingsAt r word' ≠ .null ∨ ∃ p ∈ ins, p.1 = word') := by
  induction ins with
  | nil => intro r _; simp [insertWords]
  | cons p ps ih =>
    intro r hr
    rw [insertWords_cons, ih _ (insertWord_ne_null r hr _ _), postingsAt_insertWord r hr]
    by_cases hw : word' = p.1
    · subst hw
      simp [addDocument_ne_null]
    · have hw' : ¬ p.1 = word' := fun h => hw h.symm
      simp [hw, hw']

theorem countAt_insertWords (ins : List (List Char × Int)) (word' : List Char) (d' : Int) :
    ∀ r : TrieNode, r ≠ .null →
      countAt (insertWords r ins) word' d' = countAt r word' d' + (ins.count (word', d') : Int) := by
  induction ins with
  | nil => intro r _; simp [insertWords]
  | cons p ps ih =>
    intro r hr
    rw [insertWords_cons, ih _ (insertWord_ne_null r hr _ _), countAt_insertWord r hr,
      List.count_cons]
    by_cases hp : p = (word', d')
    · subst hp
      simp
      ring
    · have h1 : ¬ (word' = p.1 ∧ d' = p.2) := by
        rintro ⟨h1, h2⟩
        exact hp (by rw [h1, h2])
      have h2 : ¬ (p == (word', d')) = true := by simpa using hp
      simp [h1, h2]

theorem postingsAt_emptyRoot (word : List Char) : postingsAt emptyRoot word = .null := by
  show postingsAt (.node (Char.ofNat 0) .null .null .null) word = .null
  cases word with
  | nil => rw [postingsAt_nil]
  | cons x xs => rw [postingsAt_cons]; exact postingsAt_null xs

theorem reaches_emptyRoot (word : List Char) : reaches emptyRoot word = decide (word = []) := by
  show reaches (.node (Char.ofNat 0) .null .null .null) word = decide (word = [])
  cases word with
  | nil => rw [reaches_nil]; rfl
  | cons x xs => rw [reaches_cons]; simp [findChild, reaches_null]

theorem countWordInDocument_of_postings_null (e : SearchEngine) (w : List Char) (d : Int)
    (h : postingsAt e.root (toLowerCase w) = .null) :
    countWordInDocument e w d = 0 ∧ countDocumentsContaining e w = 0 := by
  rw [countWordInDocument_eq_countAt, countAt_eq_postingsAt, countDocumentsContaining_eq_lengthAt,
    lengthAt_eq_postingsAt, h]
  exact ⟨rfl, rfl⟩

/-- C11 (amended): for every trie built by insertions and every word `w`, lookup (`searchWord`
on the case-folded `w`) returns a node exactly when the case-folded `w` is empty or a prefix
(proper or not) of an inserted term, and the node it returns carries a posting list exactly
when `w` was inserted as a whole term. For a word that was never inserted as a term, lookup
returns null or a node without postings, and `countWordInDocument` and
`countDocumentsContaining` are 0 either way. -/
theorem searchWord_after_insertions (ins : List (List Char × Int)) (w : List Char) :
    (searchWord (insertWords emptyRoot (foldTerms ins)) (toLowerCase w) ≠ .null ↔
        toLowerCase w = [] ∨ ∃ p ∈ ins, toLowerCase w <+: toLowerCase p.1) ∧
      (postingsAt (insertWords emptyRoot (foldTerms ins)) (toLowerCase w) ≠ .null ↔
        ∃ p ∈ ins, toLowerCase p.1 = toLowerCase w) ∧
      ((∀ p ∈ ins, toLowerCase p.1 ≠ toLowerCase w) →
        ∀ (document_map : List (List Char)) (n : Nat) (d : Int),
          countWordInDocument ⟨insertWords emptyRoot (foldTerms ins), document_map, n⟩ w d = 0 ∧
          countDocumentsContaining ⟨insertWords emptyRoot (foldTerms ins), document_map, n⟩ w
            = 0) := by
  have hpost : postingsAt (insertWords emptyRoot (foldTerms ins)) (toLowerCase w) ≠ .null ↔
      ∃ p ∈ ins, toLowerCase p.1 = toLowerCase w := by
    rw [postingsAt_insertWords_ne_null _ _ _ emptyRoot_ne_null, postingsAt_emptyRoot]
    constructor
    · rintro (h | ⟨q, hq, heq⟩)
      · exact absurd rfl h
      · obtain ⟨p, hp, rfl⟩ := List.mem_map.mp hq
        exact ⟨p, hp, heq⟩
    · rintro ⟨p, hp, heq⟩
      exact Or.inr ⟨(toLowerCase p.1, p.2), List.mem_map.mpr ⟨p, hp, rfl⟩, heq⟩
  refine ⟨?_, hpost, ?_⟩
  · rw [← reaches_iff, reaches_insertWords _ _ _ emptyRoot_ne_null, reaches_emptyRoot]
    simp [foldTerms]
  · intro hnone document_map n d
    apply countWordInDocument_of_postings_null
    by_contra hne
    obtain ⟨p, hp, heq⟩ := hpost.mp hne
    exact hnone p hp heq

/-- Instance of the amended C11: after inserting "cat", the never-inserted word "dog". -/
theorem searchWord_after_insertions_witness :
    (∀ p ∈ [("cat".toList, (0 : Int))], toLowerCase p.1 ≠ toLowerCase "dog".toList) ∧
      countWordInDocument
        ⟨insertWords emptyRoot (foldTerms [("cat".toList, (0 : Int))]), ["cat".toList], 1⟩
        "dog".toList 0 = 0 :=
  ⟨by decide,
    ((searchWord_after_insertions [("cat".toList, (0 : Int))] "dog".toList).2.2 (by decide)
      ["cat".toList] 1 0).1⟩

/-- C11 (counterexample): after the single insertion of "cat", `searchWord` returns a node,
not null, for the proper prefix "ca" and for the empty word, neither of which was inserted. -/
theorem searchWord_returns_prefix_nodes :
    searchWord (insertWords emptyRoot (foldTerms [("cat".toList, (0 : Int))]))
        (toLowerCase "ca".toList) ≠ .null ∧
      searchWord (insertWords emptyRoot (foldTerms [("cat".toList, (0 : Int))]))
        (toLowerCase []) ≠ .null ∧
      (∀ p ∈ [("cat".toList, (0 : Int))],
        toLowerCase p.1 ≠ toLowerCase "ca".toList ∧ toLowerCase p.1 ≠ toLowerCase []) := by
  decide

/-! ### Empty queries and queries without matches (C12, C13) -/

theorem flush_tokenizeLoop_eq_nil (s : List Char) :
    ∀ (cur : List Char) (toks : List (List Char)),
      flushToken (tokenizeLoop s cur toks) = [] ↔
        toks = [] ∧ cur = [] ∧ ∀ c ∈ s, isAlphaNum c = false := by
  induction s with
  | nil =>
    intro cur toks
    cases cur <;> simp [tokenizeLoop, flushToken]
  | cons ch rest ih =>
    intro cur toks
    by_cases hch : isAlphaNum ch = true
    · simp only [tokenizeLoop, hch, if_true]
      rw [ih]
      simp [hch]
    · have hch' : isAlphaNum ch = false := by simpa using hch
      cases cur with
      | nil =>
        simp only [tokenizeLoop, hch', Bool.false_eq_true, if_false, List.isEmpty_nil,
          Bool.not_true]
        rw [ih]
        simp [hch']
      | cons c cs =>
        simp only [tokenizeLoop, hch', Bool.false_eq_true, if_false, List.isEmpty_cons,
          Bool.not_false, if_true]
        rw [ih]
        simp

theorem tokenizeQuery_eq_nil_iff (query : List Char) :
    tokenizeQuery query [] = [] ↔ ∀ c ∈ query, isAlphaNum c = false := by
  rw [tokenizeQuery_eq_flush, flush_tokenizeLoop_eq_nil]
  simp

theorem displayResults_ne_emptyQuery (e : SearchEngine) (results : MaxHeap S) :
    displayResults e results ≠ .emptyQuery := by
  unfold displayResults
  split <;> exact fun h => SearchOutput.noConfusion h

theorem search_eq_emptyQuery_iff (log : S → S) (e : SearchEngine) (query : List Char) (k : Nat) :
    search log e query k = .emptyQuery ↔ tokenizeQuery query [] = [] := by
  unfold search
  cases h : tokenizeQuery query [] with
  | nil => simp
  | cons a as =>
    simp only [List.isEmpty_cons, Bool.false_eq_true, if_false]
    constructor
    · intro hc; exact absurd hc (displayResults_ne_emptyQuery _ _)
    · intro hc; exact absurd hc (List.cons_ne_nil _ _)

/-- C12: for every built corpus, every capacity `k` (so every `k > 0`) and every query string,
`search` reports the empty-query outcome (and prints no result) if and only if
`tokenizeQuery(query)` is empty, which happens if and only if the query contains no ASCII
letter or digit (the empty string, or only punctuation and whitespace). -/
theorem search_emptyQuery_iff_no_alnum (log : S → S) (documents : List (List Char))
    (query : List Char) (k : Nat) :
    (search log (buildIndex (load documents)) query k = .emptyQuery ↔
        tokenizeQuery query [] = []) ∧
      (tokenizeQuery query [] = [] ↔ ∀ c ∈ query, isAlphaNum c = false) ∧
      (search log (buildIndex (load documents)) query k = .emptyQuery →
        (search log (buildIndex (load documents)) query k).entries = []) := by
  refine ⟨search_eq_emptyQuery_iff log _ query k, tokenizeQuery_eq_nil_iff query, ?_⟩
  intro h
  rw [h]
  rfl

/-- Instance of C12: the query ", !" on the corpus of Scenario A. -/
theorem search_emptyQuery_iff_no_alnum_witness :
    search Real.log
        (buildIndex (load ["the cat sat".toList, "the dog sat".toList, "the cat ran".toList]))
        ", !".toList 2 = .emptyQuery :=
  (search_emptyQuery_iff_no_alnum Real.log
    ["the cat sat".toList, "the dog sat".toList, "the cat ran".toList] ", !".toList 2).1.mpr
    (by decide)

theorem countWordInDocument_eq_zero_of_not_occursIn (documents : List (List Char))
    (t : List Char) (d : Nat) (hd : d < documents.length)
    (hno : occursIn t (documents.getD d []) = false) :
    countWordInDocument (buildIndex (load documents)) t (d : Int) = 0 := by
  rw [countWordInDocument_built documents t d hd]
  have : (tokenizeQuery (documents.getD d []) []).countP
      (fun tok => decide (toLowerCase tok = toLowerCase t)) = 0 := by
    rw [List.countP_eq_zero]
    intro tok htok
    unfold occursIn at hno
    rw [List.any_eq_false] at hno
    exact hno tok htok
  rw [this]
  rfl

theorem getD_mem {α : Type} (l : List α) (d : Nat) (dflt : α) (hd : d < l.length) :
    l.getD d dflt ∈ l := by
  rw [List.getD_eq_getElem?_getD, List.getElem?_eq_getElem hd]
  exact List.getElem_mem hd

theorem totalScore_eq_zero_of_no_match (log : S → S) (documents : List (List Char))
    (query_terms : List (List Char)) (d : Nat) (hd : d < documents.length)
    (hnone : ∀ tok ∈ query_terms, ∀ text ∈ documents, occursIn tok text = false) :
    totalScore log (buildIndex (load documents)) query_terms (d : Int) = 0 := by
  rw [totalScore_eq_sum]
  apply List.sum_eq_zero
  intro x hx
  obtain ⟨tok, htok, rfl⟩ := List.mem_map.mp hx
  have h0 := countWordInDocument_eq_zero_of_not_occursIn documents tok d hd
    (hnone tok htok _ (getD_mem documents d [] hd))
  simp [calculateTFIDF, calculateTF, h0]

theorem candidates_eq_nil (log : S → S) (e : SearchEngine) (query_terms : List (List Char))
    (hzero : ∀ d : Nat, d < e.total_documents → totalScore log e query_terms (d : Int) = 0) :
    candidates log e query_terms = [] := by
  unfold candidates
  rw [List.filterMap_eq_nil_iff]
  intro d hd
  have := hzero d (List.mem_range.mp hd)
  simp [this]

theorem search_eq_noResults (log : S → S) (e : SearchEngine) (query : List Char) (k : Nat)
    (hq : tokenizeQuery query [] ≠ [])
    (hzero : ∀ d : Nat, d < e.total_documents →
      totalScore log e (tokenizeQuery query []) (d : Int) = 0) :
    search log e query k = .noResults := by
  have hne : (tokenizeQuery query []).isEmpty = false := by
    cases h : tokenizeQuery query [] with
    | nil => exact absurd h hq
    | cons a as => rfl
  unfold search
  simp only [hne, Bool.false_eq_true, if_false]
  rw [collectResults_eq_insertAll, candidates_eq_nil log e _ hzero]
  rfl

/-- C13: for every built corpus, every capacity `k` (so every `k > 0`) and every query that
has at least one token but none of whose case-folded tokens occurs in any document, every
document's score is 0 and `search` ends with the no-results outcome and an empty result list;
that outcome is distinct from the empty-query outcome. -/
theorem search_no_matches (log : S → S) (documents : List (List Char)) (query : List Char)
    (k : Nat) (hq : tokenizeQuery query [] ≠ [])
    (hnone : ∀ tok ∈ tokenizeQuery query [], ∀ text ∈ documents, occursIn tok text = false) :
    (∀ d : Nat, d < documents.length →
        totalScore log (buildIndex (load documents)) (tokenizeQuery query []) (d : Int) = 0) ∧
      search log (buildIndex (load documents)) query k = .noResults ∧
      (search log (buildIndex (load documents)) query k).entries = [] ∧
      search log (buildIndex (load documents)) query k ≠ .emptyQuery := by
  have hzero : ∀ d : Nat, d < documents.length →
      totalScore log (buildIndex (load documents)) (tokenizeQuery query []) (d : Int) = 0 :=
    fun d hd => totalScore_eq_zero_of_no_match log documents _ d hd hnone
  have hres := search_eq_noResults log (buildIndex (load documents)) query k hq hzero
  refine ⟨hzero, hres, ?_, ?_⟩
  · rw [hres]; rfl
  · rw [hres]; exact fun h => SearchOutput.noConfusion h

/-- Instance of C13 (Scenario B): the corpus of Scenario A, query "zzz", `k = 2`. -/
theorem search_no_matches_witness :
    tokenizeQuery "zzz".toList [] ≠ [] ∧
      search Real.log
        (buildIndex (load ["the cat sat".toList, "the dog sat".toList, "the cat ran".toList]))
        "zzz".toList 2 = .noResults ∧
      search Real.log
        (buildIndex (load ["the cat sat".toList, "the dog sat".toList, "the cat ran".toList]))
        "zzz".toList 2 ≠ .emptyQuery :=
  ⟨by decide,
    (search_no_matches Real.log
      ["the cat sat".toList, "the dog sat".toList, "the cat ran".toList] "zzz".toList 2
      (by decide) (by decide)).2.1,
    (search_no_matches Real.log
      ["the cat sat".toList, "the dog sat".toList, "the cat ran".toList] "zzz".toList 2
      (by decide) (by decide)).2.2.2⟩

/-! ### Scenario A (C14) -/

theorem insertAll_two_equal (s : S) (a b : Int) :
    MaxHeap.insertAll (MaxHeap.new 2) [⟨a, s⟩, ⟨b, s⟩] =
      (⟨[⟨a, s⟩, ⟨b, s⟩], 2, 2⟩ : MaxHeap S) := by
  have h1 : MaxHeap.insert (MaxHeap.new 2 : MaxHeap S) a s =
      ⟨[⟨a, s⟩, MaxHeap.emptyNode], 2, 1⟩ := by
    simp [MaxHeap.insert, MaxHeap.new, MaxHeap.isFull, MaxHeap.heapifyUp_zero]
  have hstop : MaxHeap.heapifyUp (⟨[⟨a, s⟩, ⟨b, s⟩], 2, 1⟩ : MaxHeap S) 1 =
      ⟨[⟨a, s⟩, ⟨b, s⟩], 2, 1⟩ :=
    MaxHeap.heapifyUp_stop _ 1 (by norm_num) (by simp [MaxHeap.parent, MaxHeap.nodeAt])
  have h2 : MaxHeap.insert (⟨[⟨a, s⟩, MaxHeap.emptyNode], 2, 1⟩ : MaxHeap S) b s =
      ⟨[⟨a, s⟩, ⟨b, s⟩], 2, 2⟩ := by
    simp [MaxHeap.insert, MaxHeap.isFull, hstop]
  rw [MaxHeap.insertAll_cons, MaxHeap.insertAll_cons, h1, h2]
  rfl

theorem displayResults_two_equal (e : SearchEngine) (s : S) (a b : Int) :
    displayResults e (⟨[⟨a, s⟩, ⟨b, s⟩], 2, 2⟩ : MaxHeap S) =
      .results [⟨1, s, a, e.documentText a⟩, ⟨2, s, b, e.documentText b⟩] := by
  have h1 : MaxHeap.extractMax (⟨[⟨a, s⟩, ⟨b, s⟩], 2, 2⟩ : MaxHeap S) =
      (⟨a, s⟩, ⟨[⟨b, s⟩, ⟨b, s⟩], 2, 1⟩) := by
    simp [MaxHeap.extractMax, MaxHeap.isEmpty, MaxHeap.nodeAt, MaxHeap.heapifyDown,
      MaxHeap.largestOf, MaxHeap.leftChild, MaxHeap.rightChild]
  have h2 : MaxHeap.extractMax (⟨[⟨b, s⟩, ⟨b, s⟩], 2, 1⟩ : MaxHeap S) =
      (⟨b, s⟩, ⟨[⟨b, s⟩, ⟨b, s⟩], 2, 0⟩) := by
    simp [MaxHeap.extractMax, MaxHeap.isEmpty, MaxHeap.nodeAt, MaxHeap.heapifyDown,
      MaxHeap.largestOf, MaxHeap.leftChild, MaxHeap.rightChild]
  unfold displayResults
  have hne : MaxHeap.isEmpty (⟨[⟨a, s⟩, ⟨b, s⟩], 2, 2⟩ : MaxHeap S) = false := rfl
  simp only [hne, Bool.false_eq_true, if_false]
  rw [displayLoop_step e _ 1 hne (by norm_num), h1,
    displayLoop_step e ⟨[⟨b, s⟩, ⟨b, s⟩], 2, 1⟩ 2 rfl (by norm_num), h2,
    displayLoop_stop e ⟨[⟨b, s⟩, ⟨b, s⟩], 2, 0⟩ 3 (Or.inl rfl)]

theorem scenarioA_scores :
    totalScore Real.log (buildIndex (load scenarioA)) ["cat".toList] 0 =
        1 / 3 * Real.log (3 / 2) ∧
    totalScore Real.log (buildIndex (load scenarioA)) ["cat".toList] 1 = 0 ∧
    totalScore Real.log (buildIndex (load scenarioA)) ["cat".toList] 2 =
        1 / 3 * Real.log (3 / 2) := by
  have hc0 : countWordInDocument (buildIndex (load scenarioA)) "cat".toList 0 = 1 := by decide
  have hc1 : countWordInDocument (buildIndex (load scenarioA)) "cat".toList 1 = 0 := by decide
  have hc2 : countWordInDocument (buildIndex (load scenarioA)) "cat".toList 2 = 1 := by decide
  have hl0 : (tokenizeQuery ((buildIndex (load scenarioA)).documentText 0) []).length = 3 := by
    decide
  have hl2 : (tokenizeQuery ((buildIndex (load scenarioA)).documentText 2) []).length = 3 := by
    decide
  have hdf : countDocumentsContaining (buildIndex (load scenarioA)) "cat".toList = 2 := by decide
  have htot : (buildIndex (load scenarioA)).total_documents = 3 := rfl
  refine ⟨?_, ?_, ?_⟩
  · rw [totalScore_singleton]
    unfold calculateTF calculateIDF
    simp only [hc0, hl0, hdf, htot]
    norm_num
  · rw [totalScore_singleton]
    unfold calculateTF
    simp only [hc1]
    norm_num
  · rw [totalScore_singleton]
    unfold calculateTF calculateIDF
    simp only [hc2, hl2, hdf, htot]
    norm_num

/-- C14: on the corpus ["the cat sat", "the dog sat", "the cat ran"] with the query "cat" and
`k = 2`, documents 0 and 2 both score (1/3)·ln(3/2), which is positive, document 1 scores 0,
and `search` prints exactly two result blocks: document 0 at rank 1 and document 2 at rank 2;
document 1 is not among them. -/
theorem scenarioA_search :
    totalScore Real.log (buildIndex (load scenarioA)) (tokenizeQuery "cat".toList []) 0 =
        1 / 3 * Real.log (3 / 2) ∧
      totalScore Real.log (buildIndex (load scenarioA)) (tokenizeQuery "cat".toList []) 2 =
        1 / 3 * Real.log (3 / 2) ∧
      0 < 1 / 3 * Real.log (3 / 2) ∧
      totalScore Real.log (buildIndex (load scenarioA)) (tokenizeQuery "cat".toList []) 1 = 0 ∧
      search Real.log (buildIndex (load scenarioA)) "cat".toList 2 =
        .results [⟨1, 1 / 3 * Real.log (3 / 2), 0, "the cat sat".toList⟩,
          ⟨2, 1 / 3 * Real.log (3 / 2), 2, "the cat ran".toList⟩] := by
  have htok : tokenizeQuery "cat".toList [] = ["cat".toList] := by decide
  obtain ⟨h0, h1, h2⟩ := scenarioA_scores
  have hlog : 0 < Real.log (3 / 2) := Real.log_pos (by norm_num)
  have hpos : 0 < 1 / 3 * Real.log (3 / 2) := by
    apply mul_pos _ hlog
    norm_num
  have hcands : candidates Real.log (buildIndex (load scenarioA)) ["cat".toList] =
      [⟨0, 1 / 3 * Real.log (3 / 2)⟩, ⟨2, 1 / 3 * Real.log (3 / 2)⟩] := by
    have htot : (buildIndex (load scenarioA)).total_documents = 3 := rfl
    have hr : List.range 3 = [0, 1, 2] := by decide
    unfold candidates
    rw [htot, hr]
    simp only [List.filterMap_cons, List.filterMap_nil, Nat.cast_zero, Nat.cast_one,
      Nat.cast_ofNat, h0, h1, h2, lt_self_iff_false, if_false, hpos, if_true]
  rw [htok]
  refine ⟨h0, h2, hpos, h1, ?_⟩
  unfold search
  rw [htok]
  simp only [List.isEmpty_cons, Bool.false_eq_true, if_false]
  rw [collectResults_eq_insertAll, hcands, insertAll_two_equal, displayResults_two_equal]
  rfl

/-! ### Every printed entry is a scored document, printed once (C15) -/

theorem MaxHeap.extractAll_partition (n : Nat) :
    ∀ h : MaxHeap S, MaxHeap.Inv h →
      ((MaxHeap.extractAll n h).1 ++ MaxHeap.held (MaxHeap.extractAll n h).2).Perm
        (MaxHeap.held h) := by
  induction n with
  | zero => intro h _; simp [MaxHeap.extractAll]
  | succ n ih =>
    intro h hinv
    by_cases he : h.isEmpty = true
    · simp [MaxHeap.extractAll, he]
    · have he' : h.isEmpty = false := by simpa using he
      obtain ⟨_, e2, _, _, e5, _⟩ := MaxHeap.extractMax_not_empty h he' hinv
      simp only [MaxHeap.extractAll, he', Bool.false_eq_true, if_false, List.cons_append]
      exact ((ih _ e2).cons _).trans e5.symm

theorem mem_candidates (log : S → S) (e : SearchEngine) (query_terms : List (List Char))
    (x : HeapNode S) :
    x ∈ candidates log e query_terms ↔
      ∃ d : Nat, d < e.total_documents ∧ 0 < totalScore log e query_terms (d : Int) ∧
        x = ⟨(d : Int), totalScore log e query_terms (d : Int)⟩ := by
  unfold candidates
  rw [List.mem_filterMap]
  constructor
  · rintro ⟨d, hd, hx⟩
    refine ⟨d, List.mem_range.mp hd, ?_⟩
    by_cases hpos : 0 < totalScore log e query_terms (d : Int)
    · simp only [hpos, if_true, Option.some.injEq] at hx
      exact ⟨hpos, hx.symm⟩
    · simp [hpos] at hx
  · rintro ⟨d, hd, hpos, rfl⟩
    exact ⟨d, List.mem_range.mpr hd, by simp [hpos]⟩

theorem candidates_ids (log : S → S) (e : SearchEngine) (query_terms : List (List Char)) :
    (candidates log e query_terms).map (fun c => c.document_id) =
      ((List.range e.total_documents).filter
        (fun (d : Nat) => decide (0 < totalScore log e query_terms (d : Int)))).map
        (fun (d : Nat) => (d : Int)) := by
  unfold candidates
  generalize List.range e.total_documents = ids
  induction ids with
  | nil => rfl
  | cons d ds ih =>
    by_cases hpos : 0 < totalScore log e query_terms (d : Int)
    · simp [List.filterMap_cons, List.filter_cons, hpos, ih]
    · simp [List.filterMap_cons, List.filter_cons, hpos, ih]

theorem candidates_ids_nodup (log : S → S) (e : SearchEngine) (query_terms : List (List Char)) :
    ((candidates log e query_terms).map (fun c => c.document_id)).Nodup := by
  rw [candidates_ids]
  exact ((List.nodup_range _).filter _).map (fun a b h => by exact_mod_cast h)

theorem search_entries_nodes (log : S → S) (e : SearchEngine) (query : List Char) (k : Nat)
    (hq : tokenizeQuery query [] ≠ []) :
    (search log e query k).entries.map ResultEntry.node =
      (MaxHeap.extractAll 100
        (MaxHeap.insertAll (MaxHeap.new k) (candidates log e (tokenizeQuery query [])))).1 := by
  have hne : (tokenizeQuery query []).isEmpty = false := by
    cases h : tokenizeQuery query [] with
    | nil => exact absurd h hq
    | cons a as => rfl
  unfold search
  simp only [hne, Bool.false_eq_true, if_false]
  rw [displayResults_entries, collectResults_eq_insertAll]

/-- The (document id, score) pairs `search` prints, together with the candidates left in the
heap, are a rearrangement of the first `k` candidates. -/
theorem search_nodes_partition (log : S → S) (e : SearchEngine) (query : List Char) (k : Nat)
    (hq : tokenizeQuery query [] ≠ []) :
    ∃ rest : List (HeapNode S),
      ((search log e query k).entries.map ResultEntry.node ++ rest).Perm
        ((candidates log e (tokenizeQuery query [])).take k) := by
  rw [search_entries_nodes log e query k hq]
  obtain ⟨hinv, _, _, _⟩ :=
    MaxHeap.insertAll_spec (candidates log e (tokenizeQuery query [])) (MaxHeap.new k)
      (MaxHeap.new_inv k)
  exact ⟨_, (MaxHeap.extractAll_partition 100 _ hinv).trans (MaxHeap.held_insertAll_new k _)⟩

theorem search_entries_spec (log : S → S) (e : SearchEngine) (query : List Char) (k : Nat)
    (hq : tokenizeQuery query [] ≠ []) :
    (∀ en ∈ (search log e query k).entries,
        0 ≤ en.document_id ∧ en.document_id < (e.total_documents : Int) ∧
        en.score = totalScore log e (tokenizeQuery query []) en.document_id ∧ 0 < en.score) ∧
      ((search log e query k).entries.map (fun en => en.document_id)).Nodup := by
  obtain ⟨rest, hperm⟩ := search_nodes_partition log e query k hq
  refine ⟨?_, ?_⟩
  · intro en hen
    have h1 : en.node ∈ (search log e query k).entries.map ResultEntry.node ++ rest :=
      List.mem_append_left _ (List.mem_map_of_mem _ hen)
    have h2 : en.node ∈ candidates log e (tokenizeQuery query []) :=
      List.mem_of_mem_take (hperm.subset h1)
    obtain ⟨d, hd, hpos, hx⟩ := (mem_candidates log e _ _).mp h2
    have hid : en.document_id = (d : Int) := congrArg HeapNode.document_id hx
    have hsc : en.score = totalScore log e (tokenizeQuery query []) (d : Int) :=
      congrArg HeapNode.score hx
    rw [hid, hsc]
    exact ⟨Int.natCast_nonneg d, by exact_mod_cast hd, rfl, hpos⟩
  · have hnd : (((candidates log e (tokenizeQuery query [])).take k).map
        (fun c => c.document_id)).Nodup :=
      (candidates_ids_nodup log e _).sublist ((List.take_sublist _ _).map _)
    have hnd2 := (hperm.map (fun c => c.document_id)).nodup_iff.mpr hnd
    rw [List.map_append, List.map_map] at hnd2
    exact hnd2.of_append_left

/-- C15: for every built corpus, every query with at least one token and every capacity `k`
(so every `k > 0`), every entry `(d, s)` of the search result satisfies `0 ≤ d < N`, `s` is
the total score of `d` for the query, `s > 0`, and no document id appears in the result more
than once. -/
theorem search_entries_are_scored_documents (log : S → S) (documents : List (List Char))
    (query : List Char) (k : Nat) (hq : tokenizeQuery query [] ≠ []) :
    (∀ en ∈ (search log (buildIndex (load documents)) query k).entries,
        0 ≤ en.document_id ∧ en.document_id < (documents.length : Int) ∧
        en.score = totalScore log (buildIndex (load documents)) (tokenizeQuery query [])
          en.document_id ∧
        0 < en.score) ∧
      ((search log (buildIndex (load documents)) query k).entries.map
        (fun en => en.document_id)).Nodup :=
  search_entries_spec log (buildIndex (load documents)) query k hq

/-- Instance of C15: the corpus of Scenario A, query "cat", `k = 2`. -/
theorem search_entries_are_scored_documents_witness :
    tokenizeQuery "cat".toList [] ≠ [] ∧
      ((search Real.log (buildIndex (load scenarioA)) "cat".toList 2).entries.map
        (fun en => en.document_id)).Nodup :=
  ⟨by decide,
    (search_entries_are_scored_documents Real.log scenarioA "cat".toList 2 (by decide)).2⟩

/-! ### One insertion changes one count (C16) -/

theorem countAt_emptyRoot (word : List Char) (d : Int) : countAt emptyRoot word d = 0 := by
  rw [countAt_eq_postingsAt, postingsAt_emptyRoot]
  rfl

theorem countAt_reachable (ins : List (List Char × Int)) (word : List Char) (d : Int) :
    countAt (insertWords emptyRoot ins) word d = (ins.count (word, d) : Int) := by
  rw [countAt_insertWords ins word d emptyRoot emptyRoot_ne_null, countAt_emptyRoot, zero_add]

/-- C16: for every trie reachable by insertions, every term `t` and document id `d`, the
insertion `insertWord(toLowerCase(t), d)` raises `countWordInDocument(t, d)` by exactly 1 (from
0 to 1 when there was no posting entry) and leaves `countWordInDocument(t', d')` unchanged for
every other pair (case-folded `t'`, `d'`); so no occurrence count decreases. -/
theorem insertWord_changes_one_count (ins : List (List Char × Int)) (t : List Char) (d : Int)
    (document_map : List (List Char)) (n : Nat) :
    countWordInDocument
        ⟨insertWord (insertWords emptyRoot ins) (toLowerCase t) d, document_map, n⟩ t d =
        countWordInDocument ⟨insertWords emptyRoot ins, document_map, n⟩ t d + 1 ∧
      (countWordInDocument ⟨insertWords emptyRoot ins, document_map, n⟩ t d = 0 →
        countWordInDocument
          ⟨insertWord (insertWords emptyRoot ins) (toLowerCase t) d, document_map, n⟩ t d = 1) ∧
      (∀ (t' : List Char) (d' : Int), (toLowerCase t' ≠ toLowerCase t ∨ d' ≠ d) →
        countWordInDocument
          ⟨insertWord (insertWords emptyRoot ins) (toLowerCase t) d, document_map, n⟩ t' d' =
          countWordInDocument ⟨insertWords emptyRoot ins, document_map, n⟩ t' d') ∧
      (∀ (t' : List Char) (d' : Int),
        countWordInDocument ⟨insertWords emptyRoot ins, document_map, n⟩ t' d' ≤
          countWordInDocument
            ⟨insertWord (insertWords emptyRoot ins) (toLowerCase t) d, document_map, n⟩ t' d') := by
  have hne := insertWords_ne_null ins emptyRoot emptyRoot_ne_null
  have key : ∀ (t' : List Char) (d' : Int),
      countWordInDocument
        ⟨insertWord (insertWords emptyRoot ins) (toLowerCase t) d, document_map, n⟩ t' d' =
        countWordInDocument ⟨insertWords emptyRoot ins, document_map, n⟩ t' d' +
          (if toLowerCase t' = toLowerCase t ∧ d' = d then 1 else 0) := by
    intro t' d'
    rw [countWordInDocument_eq_countAt, countWordInDocument_eq_countAt]
    exact countAt_insertWord _ hne _ _ _ _
  refine ⟨?_, ?_, ?_, ?_⟩
  · rw [key]; simp
  · intro h0
    rw [key, h0]; simp
  · intro t' d' hother
    rw [key]
    have : ¬ (toLowerCase t' = toLowerCase t ∧ d' = d) := by
      rintro ⟨h1, h2⟩
      rcases hother with h | h
      · exact h h1
      · exact h h2
    simp [this]
  · intro t' d'
    rw [key]
    split_ifs <;> omega

/-- Instance of C16: after inserting ("cat", 0), the insertion of ("Cat", 0) leaves the count
of ("dog", 0) unchanged. -/
theorem insertWord_changes_one_count_witness :
    countWordInDocument
        ⟨insertWord (insertWords emptyRoot [("cat".toList, (0 : Int))])
          (toLowerCase "Cat".toList) 0, [], 0⟩ "dog".toList 0 =
      countWordInDocument ⟨insertWords emptyRoot [("cat".toList, (0 : Int))], [], 0⟩
        "dog".toList 0 :=
  (insertWord_changes_one_count [("cat".toList, (0 : Int))] "Cat".toList 0 [] 0).2.2.1
    "dog".toList 0 (Or.inl (by decide))

/-! ### The order of insertions does not matter (C17) -/

theorem mem_docsOf (ins : List (List Char × Int)) (word : List Char) (d : Int) :
    d ∈ docsOf ins word ↔ (word, d) ∈ ins := by
  unfold docsOf
  rw [List.mem_toFinset, List.mem_map]
  constructor
  · rintro ⟨p, hp, rfl⟩
    rw [List.mem_filter] at hp
    have h1 : p.1 = word := by simpa using hp.2
    rw [← h1]
    exact hp.1
  · intro h
    exact ⟨(word, d), List.mem_filter.mpr ⟨h, by simp⟩, rfl⟩

theorem docsOf_append_singleton (ins : List (List Char × Int)) (p : List Char × Int)
    (word : List Char) :
    docsOf (ins ++ [p]) word =
      if p.1 = word then insert p.2 (docsOf ins word) else docsOf ins word := by
  ext d
  by_cases hp : p.1 = word
  · simp only [hp, if_true, Finset.mem_insert, mem_docsOf, List.mem_append, List.mem_singleton]
    constructor
    · rintro (h | h)
      · exact Or.inr h
      · left; rw [← h]
    · rintro (h | h)
      · right; rw [h, ← hp]
      · exact Or.inl h
  · simp only [hp, if_false, mem_docsOf, List.mem_append, List.mem_singleton]
    constructor
    · rintro (h | h)
      · exact h
      · exact absurd (by rw [← h]) hp
    · exact fun h => Or.inl h

theorem docsOf_perm (ins₁ ins₂ : List (List Char × Int)) (hperm : ins₁.Perm ins₂)
    (word : List Char) : docsOf ins₁ word = docsOf ins₂ word := by
  ext d
  rw [mem_docsOf, mem_docsOf]
  exact hperm.mem_iff

/-- The posting list a sequence of insertions leaves for a word has positive frequencies and
one entry per document id inserted for the word. -/
theorem postings_reachable (ins : List (List Char × Int)) (word : List Char) :
    allPositive (postingsAt (insertWords emptyRoot ins) word) ∧
      postingLength (postingsAt (insertWords emptyRoot ins) word) = (docsOf ins word).card := by
  induction ins using List.reverseRecOn with
  | nil =>
    have h0 : insertWords emptyRoot [] = emptyRoot := rfl
    rw [h0, postingsAt_emptyRoot]
    exact ⟨trivial, rfl⟩
  | append_singleton ins p ih =>
    have hne := insertWords_ne_null ins emptyRoot emptyRoot_ne_null
    have hstep : insertWords emptyRoot (ins ++ [p]) =
        insertWord (insertWords emptyRoot ins) p.1 p.2 := by
      rw [insertWords_append]; rfl
    rw [hstep, postingsAt_insertWord _ hne, docsOf_append_singleton]
    by_cases hw : word = p.1
    · subst hw
      simp only [if_true]
      refine ⟨allPositive_addDocument _ ih.1 _, ?_⟩
      rw [postingLength_addDocument _ ih.1, ih.2, ← countAt_eq_postingsAt, countAt_reachable]
      by_cases hmem : (p.1, p.2) ∈ ins
      · have hc : ¬ ((ins.count (p.1, p.2) : Nat) : Int) = 0 := by
          have := List.count_pos_iff.mpr hmem
          omega
        have hin : p.2 ∈ docsOf ins p.1 := (mem_docsOf _ _ _).mpr hmem
        simp [hc, Finset.insert_eq_of_mem hin]
      · have hc : ((ins.count (p.1, p.2) : Nat) : Int) = 0 := by
          rw [List.count_eq_zero_of_not_mem hmem]; rfl
        have hin : p.2 ∉ docsOf ins p.1 := fun h => hmem ((mem_docsOf _ _ _).mp h)
        simp [hc, Finset.card_insert_of_not_mem hin]
    · have hw' : ¬ p.1 = word := fun h => hw h.symm
      simp only [hw, hw', if_false]
      exact ih

theorem lengthAt_reachable (ins : List (List Char × Int)) (word : List Char) :
    lengthAt (insertWords emptyRoot ins) word = (docsOf ins word).card := by
  rw [lengthAt_eq_postingsAt]
  exact (postings_reachable ins word).2

theorem displayLoop_congr (r₁ r₂ : TrieNode) (document_map : List (List Char)) (n : Nat)
    (m : Nat) :
    ∀ (results : MaxHeap S) (rank : Nat), 101 - rank = m →
      displayLoop ⟨r₁, document_map, n⟩ results rank =
        displayLoop ⟨r₂, document_map, n⟩ results rank := by
  induction m with
  | zero =>
    intro results rank hm
    rw [displayLoop_stop _ results rank (Or.inr (by omega)),
      displayLoop_stop _ results rank (Or.inr (by omega))]
  | succ m ih =>
    intro results rank hm
    by_cases he : results.isEmpty = true
    · rw [displayLoop_stop _ results rank (Or.inl he), displayLoop_stop _ results rank (Or.inl he)]
    · have hne : results.isEmpty = false := by simpa using he
      rw [displayLoop_step _ results rank hne (by omega),
        displayLoop_step _ results rank hne (by omega),
        ih results.extractMax.2 (rank + 1) (by omega)]
      rfl

/-- Two engines over the same documents whose tries answer every count alike give the same
scores and print the same search output. -/
theorem search_congr (log : S → S) (r₁ r₂ : TrieNode) (document_map : List (List Char))
    (n : Nat)
    (hcount : ∀ (w : List Char) (d : Int),
      countWordInDocument ⟨r₁, document_map, n⟩ w d =
        countWordInDocument ⟨r₂, document_map, n⟩ w d)
    (hdf : ∀ w : List Char,
      countDocumentsContaining ⟨r₁, document_map, n⟩ w =
        countDocumentsContaining ⟨r₂, document_map, n⟩ w) :
    (∀ (query_terms : List (List Char)) (d : Int),
        totalScore log ⟨r₁, document_map, n⟩ query_terms d =
          totalScore log ⟨r₂, document_map, n⟩ query_terms d) ∧
      ∀ (query : List Char) (k : Nat),
        search log ⟨r₁, document_map, n⟩ query k = search log ⟨r₂, document_map, n⟩ query k := by
  have htfidf : ∀ (w : List Char) (d : Int),
      calculateTFIDF log ⟨r₁, document_map, n⟩ w d =
        calculateTFIDF log ⟨r₂, document_map, n⟩ w d := by
    intro w d
    unfold calculateTFIDF calculateTF calculateIDF
    simp only [hcount, hdf]
    rfl
  have hscore : ∀ (query_terms : List (List Char)) (d : Int),
      totalScore log ⟨r₁, document_map, n⟩ query_terms d =
        totalScore log ⟨r₂, document_map, n⟩ query_terms d := by
    intro query_terms d
    rw [totalScore_eq_sum, totalScore_eq_sum]
    congr 1
    apply List.map_congr_left
    intro w _
    exact htfidf w d
  refine ⟨hscore, ?_⟩
  intro query k
  have hcollect : ∀ (query_terms : List (List Char)) (results : MaxHeap S),
      collectResults log ⟨r₁, document_map, n⟩ query_terms results =
        collectResults log ⟨r₂, document_map, n⟩ query_terms results := by
    intro query_terms results
    unfold collectResults
    simp only [hscore]
  unfold search displayResults
  simp only [hcollect]
  split_ifs
  · rfl
  · rfl
  · rw [displayLoop_congr r₁ r₂ document_map n 100 _ 1 rfl]

/-- C17: for any two sequences of (term, doc_id) insertions into an empty trie that are
permutations of each other, the resulting tries give the same `countWordInDocument(t, d)` and
the same `countDocumentsContaining(t)` for every term and document id, hence the same scores
and the same search output. -/
theorem insertion_order_irrelevant (ins₁ ins₂ : List (List Char × Int))
    (hperm : ins₁.Perm ins₂) :
    (∀ (document_map : List (List Char)) (n : Nat) (t : List Char) (d : Int),
        countWordInDocument ⟨insertWords emptyRoot ins₁, document_map, n⟩ t d =
          countWordInDocument ⟨insertWords emptyRoot ins₂, document_map, n⟩ t d) ∧
      (∀ (document_map : List (List Char)) (n : Nat) (t : List Char),
        countDocumentsContaining ⟨insertWords emptyRoot ins₁, document_map, n⟩ t =
          countDocumentsContaining ⟨insertWords emptyRoot ins₂, document_map, n⟩ t) ∧
      (∀ (log : S → S) (document_map : List (List Char)) (n : Nat) (query_terms : List (List Char))
          (d : Int),
        totalScore log ⟨insertWords emptyRoot ins₁, document_map, n⟩ query_terms d =
          totalScore log ⟨insertWords emptyRoot ins₂, document_map, n⟩ query_terms d) ∧
      (∀ (log : S → S) (document_map : List (List Char)) (n : Nat) (query : List Char) (k : Nat),
        search log ⟨insertWords emptyRoot ins₁, document_map, n⟩ query k =
          search log ⟨insertWords emptyRoot ins₂, document_map, n⟩ query k) := by
  have hcount : ∀ (document_map : List (List Char)) (n : Nat) (t : List Char) (d : Int),
      countWordInDocument ⟨insertWords emptyRoot ins₁, document_map, n⟩ t d =
        countWordInDocument ⟨insertWords emptyRoot ins₂, document_map, n⟩ t d := by
    intro document_map n t d
    rw [countWordInDocument_eq_countAt, countWordInDocument_eq_countAt]
    show countAt (insertWords emptyRoot ins₁) _ d = countAt (insertWords emptyRoot ins₂) _ d
    rw [countAt_reachable, countAt_reachable]
    unfold List.count
    rw [hperm.countP_eq]
  have hdf : ∀ (document_map : List (List Char)) (n : Nat) (t : List Char),
      countDocumentsContaining ⟨insertWords emptyRoot ins₁, document_map, n⟩ t =
        countDocumentsContaining ⟨insertWords emptyRoot ins₂, document_map, n⟩ t := by
    intro document_map n t
    rw [countDocumentsContaining_eq_lengthAt, countDocumentsContaining_eq_lengthAt]
    show lengthAt (insertWords emptyRoot ins₁) _ = lengthAt (insertWords emptyRoot ins₂) _
    rw [lengthAt_reachable, lengthAt_reachable, docsOf_perm ins₁ ins₂ hperm]
  refine ⟨hcount, hdf, ?_, ?_⟩
  · intro log document_map n query_terms d
    exact (search_congr log _ _ document_map n (hcount document_map n)
      (hdf document_map n)).1 query_terms d
  · intro log document_map n query k
    exact (search_congr log _ _ document_map n (hcount document_map n)
      (hdf document_map n)).2 query k

/-- Instance of C17: the insertions ("cat", 0), ("dog", 1) in both orders. -/
theorem insertion_order_irrelevant_witness :
    [("cat".toList, (0 : Int)), ("dog".toList, (1 : Int))].Perm
        [("dog".toList, (1 : Int)), ("cat".toList, (0 : Int))] ∧
      countDocumentsContaining
          ⟨insertWords emptyRoot [("cat".toList, (0 : Int)), ("dog".toList, (1 : Int))], [], 0⟩
          "cat".toList =
        countDocumentsContaining
          ⟨insertWords emptyRoot [("dog".toList, (1 : Int)), ("cat".toList, (0 : Int))], [], 0⟩
          "cat".toList :=
  ⟨List.Perm.swap _ _ _,
    (insertion_order_irrelevant (S := ℚ) [("cat".toList, (0 : Int)), ("dog".toList, (1 : Int))]
      [("dog".toList, (1 : Int)), ("cat".toList, (0 : Int))] (List.Perm.swap _ _ _)).2.1
      [] 0 "cat".toList⟩

/-! ### Trie well-formedness is invariant (C18) -/

theorem findDocument_eq_null_iff (docs : ListNode) (d : Int) :
    findDocument docs d = .null ↔ d ∉ docIds docs := by
  induction docs with
  | null => simp [findDocument, docIds]
  | node document_id frequency next ih =>
    by_cases hne : document_id = d
    · subst hne
      simp [findDocument, docIds]
    · have hne' : ¬ d = document_id := fun h => hne h.symm
      simp [findDocument, docIds, hne, hne', ih]

theorem docIds_incrementFrequency (docs : ListNode) (d : Int) :
    docIds (incrementFrequency docs d) = docIds docs := by
  induction docs with
  | null => rfl
  | node document_id frequency next ih =>
    simp only [incrementFrequency]
    split_ifs <;> simp [docIds, ih]

theorem docIds_addDocument_nodup (docs : ListNode) (d : Int) (h : (docIds docs).Nodup) :
    (docIds (addDocument docs d)).Nodup := by
  have hiff := findDocument_eq_null_iff docs d
  unfold addDocument
  cases hfind : findDocument docs d with
  | null =>
    rw [hfind] at hiff
    simp only [docIds]
    exact List.nodup_cons.mpr ⟨hiff.mp rfl, h⟩
  | node a b c =>
    simp only
    rw [docIds_incrementFrequency]
    exact h

theorem findChild_eq_null_iff (chain : TrieNode) (ch : Char) :
    findChild chain ch = .null ↔ ch ∉ chainChars chain := by
  induction chain with
  | null => simp [findChild, chainChars]
  | node c child sibling docs _ ihs =>
    by_cases hne : c = ch
    · subst hne
      simp [findChild, chainChars]
    · have hne' : ¬ ch = c := fun h => hne h.symm
      simp [findChild, chainChars, hne, hne', ihs]

theorem chainChars_updateChild (f : TrieNode → TrieNode)
    (hf : ∀ c child sibling docs, ∃ child' docs',
      f (.node c child sibling docs) = .node c child' sibling docs')
    (chain : TrieNode) (a : Char) :
    chainChars (updateChild f chain a) = chainChars chain := by
  induction chain with
  | null => rfl
  | node c child sibling docs _ ihs =>
    by_cases hc : c = a
    · obtain ⟨child', docs', hfe⟩ := hf c child sibling docs
      simp [updateChild, hc, chainChars]
      rw [← hc, hfe]
      simp [chainChars]
    · simp [updateChild, hc, chainChars, ihs]

theorem wellFormed_updateChild (f : TrieNode → TrieNode)
    (hwf : ∀ node, WellFormed node → WellFormed (f node))
    (chain : TrieNode) (a : Char) (h : WellFormed chain) :
    WellFormed (updateChild f chain a) := by
  induction chain with
  | null => trivial
  | node c child sibling docs _ ihs =>
    by_cases hc : c = a
    · simp only [updateChild, hc, ne_eq, not_true_eq_false, if_false]
      rw [← hc]
      exact hwf _ h
    · simp only [updateChild, hc, ne_eq, not_false_eq_true, if_true]
      obtain ⟨h1, h2, h3, h4, h5⟩ := h
      exact ⟨h1, h2, h3, h4, ihs h5⟩

theorem chainChars_insertFrom (word : List Char) (d : Int) (node : TrieNode) :
    chainChars (insertFrom word d node) = chainChars node := by
  cases node with
  | null => cases word <;> rfl
  | node c child sibling docs =>
    obtain ⟨child', docs', h⟩ := insertFrom_node word d c child sibling docs
    rw [h]
    rfl

theorem wellFormed_insertFrom (word : List Char) (d : Int) :
    ∀ node : TrieNode, WellFormed node → WellFormed (insertFrom word d node) := by
  induction word with
  | nil =>
    intro node h
    cases node with
    | null => trivial
    | node c child sibling docs =>
      obtain ⟨h1, h2, h3, h4, h5⟩ := h
      exact ⟨h1, docIds_addDocument_nodup docs d h2, allPositive_addDocument docs h3 d, h4, h5⟩
  | cons a rest ih =>
    intro node h
    cases node with
    | null => trivial
    | node c child sibling docs =>
      obtain ⟨h1, h2, h3, h4, h5⟩ := h
      rw [insertFrom]
      cases hfind : findChild child a with
      | null =>
        simp only
        have hfresh : WellFormed (.node a .null child .null) :=
          ⟨List.nodup_nil, List.nodup_nil, trivial, trivial, h4⟩
        refine ⟨?_, h2, h3, ih _ hfresh, h5⟩
        rw [chainChars_insertFrom]
        simp only [chainChars]
        exact List.nodup_cons.mpr ⟨(findChild_eq_null_iff child a).mp hfind, h1⟩
      | node fc fchild fsibling fdocs =>
        simp only
        refine ⟨?_, h2, h3, wellFormed_updateChild _ ih child a h4, h5⟩
        rw [chainChars_updateChild _ (insertFrom_node rest d)]
        exact h1

/-- C18: trie well-formedness is an invariant: it holds for the empty trie made by the
constructor and every `insertWord` call preserves it: in every node's sibling chain of children
no two children carry the same character, in every node's posting list no two entries carry
the same document id, and every posting entry has frequency at least 1. -/
theorem wellFormed_invariant :
    WellFormed emptyRoot ∧
      (∀ documents : List (List Char), WellFormed (load documents).root) ∧
      (∀ (root : TrieNode) (word : List Char) (doc_id : Int),
        WellFormed root → WellFormed (insertWord root word doc_id)) ∧
      (∀ ins : List (List Char × Int), WellFormed (insertWords emptyRoot ins)) ∧
      (∀ documents : List (List Char), WellFormed (buildIndex (load documents)).root) := by
  have hempty : WellFormed emptyRoot :=
    ⟨List.nodup_nil, List.nodup_nil, trivial, trivial, trivial⟩
  have hstep : ∀ (root : TrieNode) (word : List Char) (doc_id : Int),
      WellFormed root → WellFormed (insertWord root word doc_id) :=
    fun root word doc_id h => wellFormed_insertFrom word doc_id root h
  have hwords : ∀ (ins : List (List Char × Int)) (r : TrieNode),
      WellFormed r → WellFormed (insertWords r ins) := by
    intro ins
    induction ins with
    | nil => intro r h; exact h
    | cons p ps ih => intro r h; exact ih _ (hstep r p.1 p.2 h)
  have hindex : ∀ (words : List (List Char)) (d : Int) (r : TrieNode),
      WellFormed r → WellFormed (indexWords r d words) := by
    intro words d
    induction words with
    | nil => intro r h; exact h
    | cons w ws ih =>
      intro r h
      have hfold : indexWords r d (w :: ws) =
          indexWords (if !w.isEmpty then insertWord r (toLowerCase w) d else r) d ws := rfl
      rw [hfold]
      apply ih
      split
      · exact hstep _ _ _ h
      · exact h
  refine ⟨hempty, fun _ => hempty, hstep, fun ins => hwords ins _ hempty, ?_⟩
  intro documents
  rw [buildIndex_root]
  generalize (load documents).total_documents = n
  induction n with
  | zero => exact hempty
  | succ n ih =>
    rw [indexedUpTo_succ]
    exact hindex _ _ _ ih

/-- Instance of C18: inserting ("cat", 0) into the empty trie. -/
theorem wellFormed_invariant_witness :
    WellFormed emptyRoot ∧ WellFormed (insertWord emptyRoot "cat".toList 0) :=
  ⟨wellFormed_invariant.1, wellFormed_invariant.2.2.1 emptyRoot "cat".toList 0
    wellFormed_invariant.1⟩

/-! ### The max-heap invariant (C19) -/

theorem inv_insert (h : MaxHeap S) (d : Int) (s : S) (hinv : MaxHeap.Inv h) :
    MaxHeap.Inv (h.insert d s) ∧ (h.insert d s).capacity = h.capacity := by
  by_cases hf : h.isFull = true
  · rw [MaxHeap.insert_full h d s hf]
    exact ⟨hinv, rfl⟩
  · have hf' : h.isFull = false := by simpa using hf
    obtain ⟨i1, _, i3, _⟩ := MaxHeap.insert_not_full h d s hf' hinv
    exact ⟨i1, i3⟩

theorem inv_extractMax (h : MaxHeap S) (hinv : MaxHeap.Inv h) :
    MaxHeap.Inv h.extractMax.2 ∧ h.extractMax.2.capacity = h.capacity := by
  by_cases he : h.isEmpty = true
  · rw [MaxHeap.extractMax_empty h he]
    exact ⟨hinv, rfl⟩
  · have he' : h.isEmpty = false := by simpa using he
    obtain ⟨_, e2, _, e4, _, _⟩ := MaxHeap.extractMax_not_empty h he' hinv
    exact ⟨e2, e4⟩

theorem inv_applyOps (ops : List (HeapOp S)) :
    ∀ h : MaxHeap S, MaxHeap.Inv h →
      MaxHeap.Inv (applyOps h ops) ∧ (applyOps h ops).capacity = h.capacity := by
  induction ops with
  | nil => intro h hinv; exact ⟨hinv, rfl⟩
  | cons op ops ih =>
    intro h hinv
    have hstep : MaxHeap.Inv (applyOp h op) ∧ (applyOp h op).capacity = h.capacity := by
      cases op with
      | insert d s => exact inv_insert h d s hinv
      | extractMax => exact inv_extractMax h hinv
    have hfold : applyOps h (op :: ops) = applyOps (applyOp h op) ops := rfl
    rw [hfold]
    obtain ⟨h1, h2⟩ := ih _ hstep.1
    exact ⟨h1, h2.trans hstep.2⟩

/-- C19: the max-heap property is an invariant of `MaxHeap`: starting from an empty heap of
any capacity `k` (so every `k > 0`), after every sequence of `insert` and `extractMax` calls,
`size ≤ capacity = k` and for every index `i` with `0 < i < size` the score at
`parent(i) = (i-1)/2` is at least the score at `i`; `extractMax` on a non-empty heap returns
the root, a held element of maximal score, and on an empty heap it returns the sentinel
`(-1, 0.0)` and leaves the heap unchanged. -/
theorem maxHeap_invariant (k : Nat) (ops : List (HeapOp S)) :
    (applyOps (MaxHeap.new k) ops).size ≤ (applyOps (MaxHeap.new k) ops).capacity ∧
      (applyOps (MaxHeap.new k) ops).capacity = k ∧
      (∀ i, 0 < i → i < (applyOps (MaxHeap.new k) ops).size →
        (MaxHeap.nodeAt (applyOps (MaxHeap.new k) ops).heap i).score ≤
          (MaxHeap.nodeAt (applyOps (MaxHeap.new k) ops).heap ((i - 1) / 2)).score) ∧
      ((applyOps (MaxHeap.new k) ops).isEmpty = false →
        (applyOps (MaxHeap.new k) ops).extractMax.1 ∈
            MaxHeap.held (applyOps (MaxHeap.new k) ops) ∧
          ∀ x ∈ MaxHeap.held (applyOps (MaxHeap.new k) ops),
            x.score ≤ (applyOps (MaxHeap.new k) ops).extractMax.1.score) ∧
      ((applyOps (MaxHeap.new k) ops).isEmpty = true →
        (applyOps (MaxHeap.new k) ops).extractMax =
          (⟨-1, 0⟩, applyOps (MaxHeap.new k) ops)) := by
  obtain ⟨hinv, hcap⟩ := inv_applyOps ops (MaxHeap.new k : MaxHeap S) (MaxHeap.new_inv k)
  refine ⟨hinv.2.1, hcap, hinv.2.2, ?_, ?_⟩
  · intro hne
    obtain ⟨e1, _, _, _, e5, e6⟩ := MaxHeap.extractMax_not_empty _ hne hinv
    exact ⟨e5.symm.subset (List.mem_cons_self _ _), e6⟩
  · intro he
    exact MaxHeap.extractMax_empty _ he

/-- Instance of C19: `extractMax` on the fresh heap of capacity 2. -/
theorem maxHeap_invariant_witness :
    (applyOps (MaxHeap.new 2 : MaxHeap ℚ) []).extractMax =
      (⟨-1, 0⟩, applyOps (MaxHeap.new 2 : MaxHeap ℚ) []) :=
  (maxHeap_invariant 2 ([] : List (HeapOp ℚ))).2.2.2.2 rfl

/-! ### A term of every document weighs nothing (C20) -/

theorem countDocumentsContaining_of_all (documents : List (List Char)) (t : List Char)
    (hall : ∀ text ∈ documents, occursIn t text = true) :
    countDocumentsContaining (buildIndex (load documents)) t = documents.length := by
  rw [countDocumentsContaining_built, List.countP_eq_length]
  exact hall

theorem calculateIDF_of_all (documents : List (List Char)) (t : List Char)
    (hall : ∀ text ∈ documents, occursIn t text = true) :
    calculateIDF Real.log (buildIndex (load documents)) t = 0 := by
  have hdf := countDocumentsContaining_of_all documents t hall
  have hN : (buildIndex (load documents)).total_documents = documents.length := rfl
  unfold calculateIDF
  simp only [hdf, hN]
  split_ifs with h0
  · rfl
  · have hne : (documents.length : ℝ) ≠ 0 := by exact_mod_cast h0
    rw [div_self hne, Real.log_one]

/-- C20: for every corpus indexed by `buildIndex` (so every non-empty one), a term that occurs
in every one of the `N` documents has `N` postings, `calculateIDF = ln(N/N) = 0`, and
contributes 0 to every document's score; so a query with at least one token, all of whose
tokens occur in every document, scores 0 everywhere and `search` reports no results. -/
theorem ubiquitous_terms_score_zero (documents : List (List Char)) :
    (∀ t : List Char, (∀ text ∈ documents, occursIn t text = true) →
        countDocumentsContaining (buildIndex (load documents)) t = documents.length ∧
        calculateIDF Real.log (buildIndex (load documents)) t = 0 ∧
        ∀ d : Int, calculateTFIDF Real.log (buildIndex (load documents)) t d = 0) ∧
      (∀ (query : List Char) (k : Nat), tokenizeQuery query [] ≠ [] →
        (∀ tok ∈ tokenizeQuery query [], ∀ text ∈ documents, occursIn tok text = true) →
        (∀ d : Int,
          totalScore Real.log (buildIndex (load documents)) (tokenizeQuery query []) d = 0) ∧
        search Real.log (buildIndex (load documents)) query k = .noResults) := by
  have htfidf : ∀ t : List Char, (∀ text ∈ documents, occursIn t text = true) →
      ∀ d : Int, calculateTFIDF Real.log (buildIndex (load documents)) t d = 0 := by
    intro t hall d
    unfold calculateTFIDF
    simp only [calculateIDF_of_all documents t hall, mul_zero]
  refine ⟨fun t hall => ⟨countDocumentsContaining_of_all documents t hall,
    calculateIDF_of_all documents t hall, htfidf t hall⟩, ?_⟩
  intro query k hq hall
  have hzero : ∀ d : Int,
      totalScore Real.log (buildIndex (load documents)) (tokenizeQuery query []) d = 0 := by
    intro d
    rw [totalScore_eq_sum]
    apply List.sum_eq_zero
    intro x hx
    obtain ⟨tok, htok, rfl⟩ := List.mem_map.mp hx
    exact htfidf tok (hall tok htok) d
  exact ⟨hzero, search_eq_noResults Real.log _ query k hq (fun d _ => hzero d)⟩

/-- Instance of C20: the query "the" on the corpus of Scenario A prints no results. -/
theorem ubiquitous_terms_score_zero_witness :
    tokenizeQuery "the".toList [] ≠ [] ∧
      (∀ text ∈ scenarioA, occursIn "the".toList text = true) ∧
      search Real.log (buildIndex (load scenarioA)) "the".toList 2 = .noResults :=
  ⟨by decide, by decide,
    ((ubiquitous_terms_score_zero scenarioA).2 "the".toList 2 (by decide) (by decide)).2⟩

end SearchEngine
